import Mathlib

/-!
# pterm tree printer: leveled-list parser and line-art renderer

A shallow embedding of `tree_printer.go` (package `pterm`).

* Go `int` is the 64-bit two's-complement integer: values are `Int`s in
  `[intMin, intMax]`, and every `+`/`-` of the source is wrapped by `wrapInt`.
* A Go run-time panic (index out of range, nil dereference, a panic of
  `strings.Repeat`) is the result `none`.
* Go strings are modelled by `String` and `len(s)` by the UTF-8 byte size of
  the text. `strings.Repeat` panics on a negative count and when
  `len(s) * count` overflows `int`. Exhaustion of memory is outside the
  embedding: a result `some s` says that the call returns `s` when the
  machine can hold it.
* The in-place writes to the caller's slice in `NewTreeFromLeveledList` are
  explicit state: the function returns the final contents of the slice next
  to the tree.
-/

set_option autoImplicit false

namespace Pterm

/-! ## Go machine integers -/

/-- Smallest value of Go's `int` on a 64-bit target. -/
def intMin : Int := -9223372036854775808

/-- Largest value of Go's `int` on a 64-bit target. -/
def intMax : Int := 9223372036854775807

/-- Two's-complement wrap-around of a mathematical integer into `int`. -/
def wrapInt (x : Int) : Int := (x + 9223372036854775808) % 18446744073709551616 - 9223372036854775808

/-- Go `a + b` on `int`. -/
def intAdd (a b : Int) : Int := wrapInt (a + b)

/-- Go `a - b` on `int`. -/
def intSub (a b : Int) : Int := wrapInt (a - b)

/-- The integers that are values of Go's `int`. -/
def IsInt (x : Int) : Prop := intMin ≤ x ∧ x ≤ intMax

instance instDecidableIsInt (x : Int) : Decidable (IsInt x) := by unfold IsInt; infer_instance

/-! ## Data model -/

/-- TreeNode is used as items in a Tree (`type TreeNode struct`). A nil and an
empty `Children` slice are both the empty list. -/
inductive TreeNode where
  | mk (Children : List TreeNode) (Text : String)

/-- Field `Children` of a `TreeNode`. -/
def TreeNode.Children : TreeNode → List TreeNode
  | .mk cs _ => cs

/-- Field `Text` of a `TreeNode`. -/
def TreeNode.Text : TreeNode → String
  | .mk _ t => t

/-- LeveledListItem combines a text with a specific level. -/
structure LeveledListItem where
  Level : Int
  Text : String
deriving DecidableEq, Repr

/-- LeveledList is a list, which contains multiple LeveledListItem. -/
abbrev LeveledList := List LeveledListItem

/-- Every level of the list is a value of Go's `int`. -/
def LeveledList.InRange (l : LeveledList) : Prop := ∀ it ∈ l, IsInt it.Level

instance instDecidableInRange (l : LeveledList) : Decidable l.InRange := by
  unfold LeveledList.InRange; infer_instance

/-- Modelled from the spec: the type `Style` is declared outside the source
file; the spec consumes it only as a decoration capability `text → text`. -/
structure Style where
  Sprint : String → String

/-- Modelled from the spec: `NewStyle()` is declared outside the source file;
the spec says decoration defaults to identity when no style is configured. -/
def NewStyle : Style := ⟨fun s => s⟩

/-- Identity decoration as a style. -/
def idStyle : Style := ⟨fun s => s⟩

/-- Tree is able to render a list (`type Tree struct`). The two style fields
are pointers: `none` is nil. -/
structure Tree where
  Root : TreeNode
  TreeStyle : Option Style
  TextStyle : Option Style
  TopRightCornerString : String
  TopRightDownString : String
  HorizontalString : String
  VerticalString : String
  RightDownLeftString : String
  Indent : Int

/-- DefaultTree contains standards, which can be used to render a Tree. The two
theme styles it points to are declared outside the source file and are taken as
parameters; `Root` is the zero value. -/
def DefaultTree (themeTreeStyle themeTreeTextStyle : Style) : Tree :=
  { Root := .mk [] ""
    TreeStyle := some themeTreeStyle
    TextStyle := some themeTreeTextStyle
    TopRightCornerString := "└"
    HorizontalString := "─"
    TopRightDownString := "├"
    VerticalString := "│"
    RightDownLeftString := "┬"
    Indent := 2 }

/-- The default tree with identity decoration, holding the root that
`NewTreeFromLeveledList` returns for `[(0,"A"), (1,"B"), (1,"C"), (2,"D")]`. -/
def exampleTree : Tree :=
  { DefaultTree idStyle idStyle with
    Root := .mk [.mk [.mk [] "B", .mk [.mk [] "D"] "C"] "A"] "A" }

/-- The default tree with identity decoration and the `Indent` field set to 0
directly, holding a root with the two childless children A and B. -/
def flatTreeIndent0 : Tree :=
  { DefaultTree idStyle idStyle with Root := .mk [.mk [] "A", .mk [] "B"] "R", Indent := 0 }

/-- A leveled list with a level jump (0 to 3) and a negative level. -/
def jumpList : LeveledList := [⟨0, "A"⟩, ⟨3, "B"⟩, ⟨-1, "C"⟩, ⟨2, "D"⟩]

/-! ## Setters -/

/-- WithTreeStyle returns a new list with a specific tree style. The receiver
is a value (a copy of the caller's Tree), so the method is a function on
values. -/
def Tree.WithTreeStyle (p : Tree) (style : Option Style) : Tree :=
  { p with TreeStyle := style }

/-- WithTextStyle returns a new list with a specific text style. -/
def Tree.WithTextStyle (p : Tree) (style : Option Style) : Tree :=
  { p with TextStyle := style }

/-- WithTopRightCornerString returns a new list with a specific
TopRightCornerString. -/
def Tree.WithTopRightCornerString (p : Tree) (s : String) : Tree :=
  { p with TopRightCornerString := s }

/-- WithTopRightDownStringOngoing returns a new list with a specific
TopRightDownString. -/
def Tree.WithTopRightDownStringOngoing (p : Tree) (s : String) : Tree :=
  { p with TopRightDownString := s }

/-- WithHorizontalString returns a new list with a specific HorizontalString. -/
def Tree.WithHorizontalString (p : Tree) (s : String) : Tree :=
  { p with HorizontalString := s }

/-- WithVerticalString returns a new list with a specific VerticalString. -/
def Tree.WithVerticalString (p : Tree) (s : String) : Tree :=
  { p with VerticalString := s }

/-- WithRoot returns a new list with a specific Root. -/
def Tree.WithRoot (p : Tree) (root : TreeNode) : Tree :=
  { p with Root := root }

/-- WithIndent returns a new list with a specific amount of spacing between the
levels. Indent must be at least 1. -/
def Tree.WithIndent (p : Tree) (indent : Int) : Tree :=
  let indent1 := if indent < 1 then 1 else indent
  { p with Indent := indent1 }

/-! ## Renderer -/

/-- The string made of `n` copies of `s`. -/
def repeatString (s : String) (n : Nat) : String := String.join (List.replicate n s)

/-- Go `strings.Repeat(s, count)`, a function of the standard library: "It
panics if count is negative or if the result of (len(s) * count) overflows."
`len(s)` is the number of bytes of `s`. The allocation of the result is taken
to succeed. -/
def stringsRepeat (s : String) (count : Int) : Option String :=
  if count < 0 then none
  else if (s.utf8ByteSize : Int) * count > intMax then none
  else some (repeatString s count.toNat)

/-- Call of `style.Sprint(text)` through a style pointer: a nil pointer cannot
be dereferenced. -/
def sprint (style : Option Style) (text : String) : Option String :=
  style.map fun s => s.Sprint text

mutual
/-- Body of the `for i, item := range list` loop of `walkOverTree` for one
`item` at index `i` of a list of length `len`: the new value of `ret`. -/
def walkItem (p : Tree) (len i : Nat) (item : TreeNode) (pfx ret : String) : Option String :=
  match item with
  | .mk children text =>
    if len > i + 1 then -- if not last in list
      if children.length = 0 then do -- if there are no children
        let a ← sprint p.TreeStyle p.TopRightDownString
        let h ← sprint p.TreeStyle p.HorizontalString
        let r ← stringsRepeat h p.Indent
        let t ← sprint p.TextStyle text
        pure (ret ++ (pfx ++ a ++ r ++ t ++ "\n"))
      else do -- if there are children
        let a ← sprint p.TreeStyle p.TopRightDownString
        let h ← sprint p.TreeStyle p.HorizontalString
        let r ← stringsRepeat h (intSub p.Indent 1)
        let f ← sprint p.TreeStyle p.RightDownLeftString
        let t ← sprint p.TextStyle text
        let ret1 := ret ++ (pfx ++ a ++ r ++ f ++ t ++ "\n")
        let v ← sprint p.TreeStyle p.VerticalString
        let sp ← stringsRepeat " " (intSub p.Indent 1)
        let sub ← walkLoop p children.length 0 children (pfx ++ v ++ sp) ""
        pure (ret1 ++ sub)
    else if len = i + 1 then -- if last in list
      if children.length = 0 then do -- if there are no children
        let a ← sprint p.TreeStyle p.TopRightCornerString
        let h ← sprint p.TreeStyle p.HorizontalString
        let r ← stringsRepeat h p.Indent
        let t ← sprint p.TextStyle text
        pure (ret ++ (pfx ++ a ++ r ++ t ++ "\n"))
      else do -- if there are children
        let a ← sprint p.TreeStyle p.TopRightCornerString
        let h ← sprint p.TreeStyle p.HorizontalString
        let r ← stringsRepeat h (intSub p.Indent 1)
        let f ← sprint p.TreeStyle p.RightDownLeftString
        let t ← sprint p.TextStyle text
        let ret1 := ret ++ (pfx ++ a ++ r ++ f ++ t ++ "\n")
        let sp ← stringsRepeat " " p.Indent
        let sub ← walkLoop p children.length 0 children (pfx ++ sp) ""
        pure (ret1 ++ sub)
    else pure ret
termination_by structural item
/-- The `for i, item := range list` loop of `walkOverTree`, from index `i` on:
`rest` holds the items not yet visited, `ret` the text accumulated so far. -/
def walkLoop (p : Tree) (len i : Nat) (rest : List TreeNode) (pfx ret : String) : Option String :=
  match rest with
  | [] => some ret
  | item :: rest1 => do
    let ret1 ← walkItem p len i item pfx ret
    walkLoop p len (i + 1) rest1 pfx ret1
termination_by structural rest
end

/-- walkOverTree is a recursive function, which analyzes a Tree and connects
the items with specific characters. Returns Tree as string. -/
def walkOverTree (list : List TreeNode) (p : Tree) (pfx : String) : Option String :=
  walkLoop p list.length 0 list pfx ""

/-- Srender renders the list as a string. The result is `none` when the call
panics, and otherwise the returned pair of the string and the error value
(`none` for the nil error). -/
def Tree.Srender (p : Tree) : Option (String × Option String) :=
  let p1 := if p.TreeStyle.isNone then { p with TreeStyle := some NewStyle } else p
  let p2 := if p1.TextStyle.isNone then { p1 with TextStyle := some NewStyle } else p1
  (walkOverTree p2.Root.Children p2 "").map fun s => (s, none)

/-! ## Parser -/

/-- The descent `for i := 0; i < record.Level; i++ { last = &last.Children[len-1] }`
followed by `last.Children = append(last.Children, child)`, as a functional
update of the node `last` starts from; `k` is the number of descents left.
Indexing an empty `Children` with `len-1 = -1` panics. -/
def appendAtDepth : Nat → TreeNode → TreeNode → Option TreeNode
  | 0, .mk cs t, child => some (.mk (cs ++ [child]) t)
  | k + 1, .mk cs t, child =>
    match cs[cs.length - 1]? with
    | none => none
    | some c =>
      match appendAtDepth k c child with
      | none => none
      | some c1 => some (.mk (cs.set (cs.length - 1) c1) t)

/-- One iteration of `for i, record := range leveledListItems`, on the current
contents of the slice and the current root. The tree component is `none` when
the iteration panics; the slice component then holds what was written before. -/
def parseStep (i : Nat) (items : LeveledList) (root : TreeNode) : LeveledList × Option TreeNode :=
  match items[i]? with
  | none => (items, none)
  | some record0 =>
    -- if record.Level < 0 { record.Level = 0; leveledListItems[i].Level = 0 }
    let record : LeveledListItem := if record0.Level < 0 then { record0 with Level := 0 } else record0
    let items1 : LeveledList := if record0.Level < 0 then items.set i { record0 with Level := 0 } else items
    -- if len(leveledListItems)-1 != i { ... }
    if (items1.length : Int) - 1 ≠ (i : Int) then
      match items1[i + 1]? with
      | none => (items1, none)
      | some next =>
        let items2 : LeveledList :=
          if intSub next.Level 1 > record.Level then
            items1.set (i + 1) { next with Level := intAdd record.Level 1 }
          else items1
        (items2, appendAtDepth record.Level.toNat root (.mk [] record.Text))
    else
      (items1, appendAtDepth record.Level.toNat root (.mk [] record.Text))

/-- The loop `for i, record := range leveledListItems` from index `i` on, with
`n` iterations left. -/
def parseLoop : Nat → Nat → LeveledList → TreeNode → LeveledList × Option TreeNode
  | 0, _, items, root => (items, some root)
  | n + 1, i, items, root =>
    match parseStep i items root with
    | (items1, none) => (items1, none)
    | (items1, some root1) => parseLoop n (i + 1) items1 root1

/-- NewTreeFromLeveledList converts a TreeItems list to a TreeNode and returns
it. The first component is the final contents of the caller's slice (the
levels are rewritten in place); the second is the returned node, or `none`
when the call panics. -/
def NewTreeFromLeveledList (leveledListItems : LeveledList) : LeveledList × Option TreeNode :=
  match leveledListItems with
  | [] => (leveledListItems, some (.mk [] ""))
  | first :: _ => parseLoop leveledListItems.length 0 leveledListItems (.mk [] first.Text)

/-! ## Auxiliary definitions for the statements and proofs -/

/-- The effect of `if record.Level < 0 { ... = 0 }` on the current item. -/
def clampNeg (record : LeveledListItem) : LeveledListItem :=
  if record.Level < 0 then { record with Level := 0 } else record

/-- The effect of `if leveledListItems[i+1].Level-1 > record.Level { ... }` on
the next item, for the (already clamped) level `cur` of the current item. -/
def clampNext (cur : Int) (next : LeveledListItem) : LeveledListItem :=
  if intSub next.Level 1 > cur then { next with Level := intAdd cur 1 } else next

/-- The loop of `NewTreeFromLeveledList` from the item `record` on, `rest`
being the items after it: the rewritten items and the resulting root. -/
def parseFrom : LeveledListItem → LeveledList → TreeNode → LeveledList × Option TreeNode
  | record, [], root =>
    ([clampNeg record],
      appendAtDepth (clampNeg record).Level.toNat root (.mk [] (clampNeg record).Text))
  | record, next :: rest, root =>
    match appendAtDepth (clampNeg record).Level.toNat root (.mk [] (clampNeg record).Text) with
    | none => (clampNeg record :: clampNext (clampNeg record).Level next :: rest, none)
    | some root1 =>
      (clampNeg record :: (parseFrom (clampNext (clampNeg record).Level next) rest root1).1,
        (parseFrom (clampNext (clampNeg record).Level next) rest root1).2)

/-- The glyph sequence of the connector matrix for a child: `isLast` says the
child is the last of its sibling list, `hasChildren` that its own child list is
non-empty; every glyph is decorated by `d` as in `walkOverTree`. -/
def connector (d : Style) (p : Tree) (isLast hasChildren : Bool) : String :=
  match isLast, hasChildren with
  | false, false =>
    d.Sprint p.TopRightDownString ++ repeatString (d.Sprint p.HorizontalString) p.Indent.toNat
  | false, true =>
    d.Sprint p.TopRightDownString ++
      repeatString (d.Sprint p.HorizontalString) (p.Indent - 1).toNat ++
      d.Sprint p.RightDownLeftString
  | true, false =>
    d.Sprint p.TopRightCornerString ++ repeatString (d.Sprint p.HorizontalString) p.Indent.toNat
  | true, true =>
    d.Sprint p.TopRightCornerString ++
      repeatString (d.Sprint p.HorizontalString) (p.Indent - 1).toNat ++
      d.Sprint p.RightDownLeftString

/-- The prefix `walkOverTree` passes to the recursive call on the children of a
child: the vertical glyph and `Indent-1` spaces below a child that is not last,
`Indent` spaces below the last child. -/
def childPfx (d : Style) (p : Tree) (isLast : Bool) (pfx : String) : String :=
  if isLast then pfx ++ repeatString " " p.Indent.toNat
  else pfx ++ d.Sprint p.VerticalString ++ repeatString " " (p.Indent - 1).toNat

/-- The line the loop body of `walkOverTree` appends to `ret` for a child with
label `text`: the four `ret += prefix + ... + "\n"` expressions of the source,
selected by `isLast` and `hasChildren`; `none` when `strings.Repeat` panics. -/
def itemLine (d tx : Style) (p : Tree) (isLast hasChildren : Bool) (pfx text : String) :
    Option String :=
  match isLast, hasChildren with
  | false, false =>
    (stringsRepeat (d.Sprint p.HorizontalString) p.Indent).map fun r =>
      pfx ++ d.Sprint p.TopRightDownString ++ r ++ tx.Sprint text ++ "\n"
  | false, true =>
    (stringsRepeat (d.Sprint p.HorizontalString) (intSub p.Indent 1)).map fun r =>
      pfx ++ d.Sprint p.TopRightDownString ++ r ++ d.Sprint p.RightDownLeftString ++
        tx.Sprint text ++ "\n"
  | true, false =>
    (stringsRepeat (d.Sprint p.HorizontalString) p.Indent).map fun r =>
      pfx ++ d.Sprint p.TopRightCornerString ++ r ++ tx.Sprint text ++ "\n"
  | true, true =>
    (stringsRepeat (d.Sprint p.HorizontalString) (intSub p.Indent 1)).map fun r =>
      pfx ++ d.Sprint p.TopRightCornerString ++ r ++ d.Sprint p.RightDownLeftString ++
        tx.Sprint text ++ "\n"

/-- The text the loop body of `walkOverTree` appends to `ret` after the line of
a child: nothing for a childless child, else the result of the recursive call
on its children with the extended prefix; `none` when a call panics. -/
def childrenText (d : Style) (p : Tree) (isLast : Bool) (children : List TreeNode)
    (pfx : String) : Option String :=
  match children, isLast with
  | [], _ => some ""
  | _ :: _, false =>
    (stringsRepeat " " (intSub p.Indent 1)).bind fun sp =>
      walkOverTree children p (pfx ++ d.Sprint p.VerticalString ++ sp)
  | _ :: _, true =>
    (stringsRepeat " " p.Indent).bind fun sp => walkOverTree children p (pfx ++ sp)

/-- A decoration that is not compatible with concatenation: it puts the text
between square brackets. -/
def bracketStyle : Style := ⟨fun s => "[" ++ s ++ "]"⟩

/-- The text without the newline character. -/
def NoNewline (s : String) : Prop := '\n' ∉ s.data

instance instDecidableNoNewline (s : String) : Decidable (NoNewline s) := by
  unfold NoNewline; infer_instance

/-- The text made of the given lines, each followed by one newline. -/
def joinLines : List String → String
  | [] => ""
  | line :: rest => line ++ "\n" ++ joinLines rest

mutual
/-- The lines of the spec's renderer for a node and its descendants, in
pre-order: for each node the text before its label (prefix and connector) and
its decorated label. -/
def linesNode (d tx : Style) (p : Tree) (isLast : Bool) (pfx : String) :
    TreeNode → List (String × String)
  | .mk cs t =>
    (pfx ++ connector d p isLast (!cs.isEmpty), tx.Sprint t) ::
      linesList d tx p (childPfx d p isLast pfx) cs
/-- The lines of the spec's renderer for a list of siblings under the prefix
`pfx`, in list order. -/
def linesList (d tx : Style) (p : Tree) (pfx : String) :
    List TreeNode → List (String × String)
  | [] => []
  | c :: cs => linesNode d tx p cs.isEmpty pfx c ++ linesList d tx p pfx cs
end

/-- The receiver of `Srender` after its two nil checks: a nil style is replaced
by `NewStyle()`. -/
def withDefaultStyles (p : Tree) : Tree :=
  { p with TreeStyle := some (p.TreeStyle.getD NewStyle),
           TextStyle := some (p.TextStyle.getD NewStyle) }

/-- Whether the descent `last = &last.Children[len-1]` can be taken `k` times
from the node. -/
def canDescend : Nat → TreeNode → Bool
  | 0, _ => true
  | k + 1, .mk cs _ =>
    match cs[cs.length - 1]? with
    | none => false
    | some c => canDescend k c

/-- The levels the loop leaves in the slice when no iteration panics: the
current item clamped at 0, the next one clamped against it, and so on. -/
def normalize : LeveledListItem → LeveledList → LeveledList
  | record, [] => [clampNeg record]
  | record, next :: rest =>
    clampNeg record :: normalize (clampNext (clampNeg record).Level next) rest

/-- The levels `NewTreeFromLeveledList` leaves in the slice when it returns, as
a function of the levels it received. -/
def normalizeList : LeveledList → LeveledList
  | [] => []
  | first :: rest => normalize first rest

/-- The jump clamp in the words of the spec, over the mathematical integers:
"if the next item's level exceeds level(i)+1, the next item's level is
rewritten to level(i)+1". -/
def specClampNext (cur : Int) (next : LeveledListItem) : LeveledListItem :=
  if next.Level > cur + 1 then { next with Level := cur + 1 } else next

/-- The level normalization in the words of the spec, from the item `record`
on: "applied left-to-right, one pass: any level < 0 is rewritten to 0", then
the jump clamp of the next item against the rewritten level. -/
def specNormalizeFrom : LeveledListItem → LeveledList → LeveledList
  | record, [] => [if record.Level < 0 then { record with Level := 0 } else record]
  | record, next :: rest =>
    (if record.Level < 0 then { record with Level := 0 } else record) ::
      specNormalizeFrom (specClampNext (if record.Level < 0 then 0 else record.Level) next) rest

/-- The level normalization in the words of the spec, on a whole list. -/
def specNormalize : LeveledList → LeveledList
  | [] => []
  | first :: rest => specNormalizeFrom first rest

/-- The level clamp of the spec: no level is negative and no level exceeds the
level of the item before it plus 1. -/
def LevelsClamped (l : LeveledList) : Prop :=
  (∀ it ∈ l, 0 ≤ it.Level) ∧ List.Chain' (fun a b => b.Level ≤ a.Level + 1) l

mutual
/-- Pre-order listing of a node and its descendants as (depth, label) pairs,
the node itself at depth `d`. -/
def preorderNode (d : Int) : TreeNode → List (Int × String)
  | .mk cs t => (d, t) :: preorderList (d + 1) cs
/-- Pre-order listing of a list of sibling nodes at depth `d`, in list order. -/
def preorderList (d : Int) : List TreeNode → List (Int × String)
  | [] => []
  | c :: cs => preorderNode d c ++ preorderList d cs
end

/-! ## Renderer: loop lemmas -/

theorem walkItem_ret (p : Tree) (len i : Nat) (item : TreeNode) (pfx ret : String) :
    walkItem p len i item pfx ret = (walkItem p len i item pfx "").map (fun s => ret ++ s) := by
  cases item with
  | mk cs t =>
    simp only [walkItem]
    split_ifs <;> simp [String.append_assoc]

theorem walkLoop_ret (p : Tree) (len : Nat) (rest : List TreeNode) :
    ∀ (i : Nat) (pfx ret : String),
      walkLoop p len i rest pfx ret = (walkLoop p len i rest pfx "").map (fun s => ret ++ s) := by
  induction rest with
  | nil => intro i pfx ret; simp [walkLoop]
  | cons item rest ih =>
    intro i pfx ret
    simp only [walkLoop]
    rw [walkItem_ret p len i item pfx ret]
    cases h : walkItem p len i item pfx "" with
    | none => simp
    | some a =>
      simp only [Option.map_some', Option.bind_eq_bind, Option.some_bind]
      rw [ih (i + 1) pfx (ret ++ a), ih (i + 1) pfx a]
      cases walkLoop p len (i + 1) rest pfx "" <;> simp [String.append_assoc]

theorem walkItem_shift (p : Tree) (len i k : Nat) (item : TreeNode) (pfx ret : String) :
    walkItem p (len + k) (i + k) item pfx ret = walkItem p len i item pfx ret := by
  cases item with
  | mk cs t =>
    simp only [walkItem]
    have h1 : len + k > i + k + 1 ↔ len > i + 1 := by omega
    have h2 : len + k = i + k + 1 ↔ len = i + 1 := by omega
    simp only [h1, h2]

theorem walkLoop_shift (p : Tree) (len k : Nat) (rest : List TreeNode) :
    ∀ (i : Nat) (pfx ret : String),
      walkLoop p (len + k) (i + k) rest pfx ret = walkLoop p len i rest pfx ret := by
  induction rest with
  | nil => intro i pfx ret; simp [walkLoop]
  | cons item rest ih =>
    intro i pfx ret
    simp only [walkLoop]
    rw [walkItem_shift]
    have h : i + k + 1 = (i + 1) + k := by omega
    rw [h]
    simp only [ih]

theorem walkOverTree_nil (p : Tree) (pfx : String) : walkOverTree [] p pfx = some "" := by
  simp [walkOverTree, walkLoop]

theorem walkOverTree_cons (p : Tree) (item : TreeNode) (rest : List TreeNode) (pfx : String) :
    walkOverTree (item :: rest) p pfx =
      (walkItem p (rest.length + 1) 0 item pfx "").bind fun a =>
        (walkOverTree rest p pfx).map fun b => a ++ b := by
  simp only [walkOverTree, walkLoop, List.length_cons]
  cases h : walkItem p (rest.length + 1) 0 item pfx "" with
  | none => simp
  | some a =>
    simp only [Option.bind_eq_bind, Option.some_bind]
    have := walkLoop_shift p rest.length 1 rest 0 pfx a
    simp only [Nat.zero_add] at this
    rw [this, walkLoop_ret]

theorem wrapInt_of_isInt (x : Int) (h : IsInt x) : wrapInt x = x := by
  unfold IsInt intMin intMax at h
  unfold wrapInt
  omega

theorem intSub_one_of_pos (x : Int) (h1 : 1 ≤ x) (h2 : x ≤ intMax) : intSub x 1 = x - 1 := by
  unfold intSub
  apply wrapInt_of_isInt
  unfold IsInt intMin
  unfold intMax at *
  omega

theorem stringsRepeat_of_fits (s : String) (count : Int) (h0 : 0 ≤ count)
    (h : (s.utf8ByteSize : Int) * count ≤ intMax) :
    stringsRepeat s count = some (repeatString s count.toNat) := by
  unfold stringsRepeat
  rw [if_neg (by omega), if_neg (by omega)]

theorem stringsRepeat_some (s : String) (count : Int) (r : String)
    (h : stringsRepeat s count = some r) :
    0 ≤ count ∧ (s.utf8ByteSize : Int) * count ≤ intMax ∧ r = repeatString s count.toNat := by
  unfold stringsRepeat at h
  split_ifs at h with h1 h2
  simp only [Option.some.injEq] at h
  exact ⟨by omega, by omega, h.symm⟩

theorem stringsRepeat_neg (s : String) (count : Int) (h : count < 0) :
    stringsRepeat s count = none := by
  unfold stringsRepeat
  rw [if_pos h]

theorem utf8ByteSize_space : (" " : String).utf8ByteSize = 1 := by decide

theorem fits_pred (b : Nat) (n : Int) (h : (b : Int) * n ≤ intMax) :
    (b : Int) * (n - 1) ≤ intMax := by
  have hb : (0 : Int) ≤ b := Int.ofNat_nonneg b
  have : (b : Int) * (n - 1) ≤ (b : Int) * n := mul_le_mul_of_nonneg_left (by omega) hb
  omega

/-- Explicit form of the loop body when both styles are set, the indent is at
least 1 and the repeated horizontal glyph fits in `int`. -/
theorem walkItem_eq (p : Tree) (d tx : Style) (hd : p.TreeStyle = some d)
    (ht : p.TextStyle = some tx) (h1 : 1 ≤ p.Indent) (h2 : p.Indent ≤ intMax)
    (h3 : ((d.Sprint p.HorizontalString).utf8ByteSize : Int) * p.Indent ≤ intMax)
    (len i : Nat) (cs : List TreeNode) (t pfx ret : String) :
    walkItem p len i (.mk cs t) pfx ret =
      if len > i + 1 then
        if cs.length = 0 then
          some (ret ++ (pfx ++ d.Sprint p.TopRightDownString
            ++ repeatString (d.Sprint p.HorizontalString) p.Indent.toNat ++ tx.Sprint t ++ "\n"))
        else
          (walkOverTree cs p
            (pfx ++ d.Sprint p.VerticalString ++ repeatString " " (p.Indent - 1).toNat)).map
            fun sub => ret ++ (pfx ++ d.Sprint p.TopRightDownString
              ++ repeatString (d.Sprint p.HorizontalString) (p.Indent - 1).toNat
              ++ d.Sprint p.RightDownLeftString ++ tx.Sprint t ++ "\n") ++ sub
      else if len = i + 1 then
        if cs.length = 0 then
          some (ret ++ (pfx ++ d.Sprint p.TopRightCornerString
            ++ repeatString (d.Sprint p.HorizontalString) p.Indent.toNat ++ tx.Sprint t ++ "\n"))
        else
          (walkOverTree cs p (pfx ++ repeatString " " p.Indent.toNat)).map
            fun sub => ret ++ (pfx ++ d.Sprint p.TopRightCornerString
              ++ repeatString (d.Sprint p.HorizontalString) (p.Indent - 1).toNat
              ++ d.Sprint p.RightDownLeftString ++ tx.Sprint t ++ "\n") ++ sub
      else some ret := by
  have e1 : intSub p.Indent 1 = p.Indent - 1 := intSub_one_of_pos _ h1 h2
  have r1 := stringsRepeat_of_fits (d.Sprint p.HorizontalString) p.Indent (by omega) h3
  have r2 := stringsRepeat_of_fits (d.Sprint p.HorizontalString) (p.Indent - 1) (by omega)
    (fits_pred _ _ h3)
  have r3 := stringsRepeat_of_fits " " p.Indent (by omega)
    (by rw [utf8ByteSize_space]; omega)
  have r4 := stringsRepeat_of_fits " " (p.Indent - 1) (by omega)
    (by rw [utf8ByteSize_space]; omega)
  simp only [walkOverTree, walkItem, hd, ht, sprint, e1]
  split_ifs <;> simp [r1, r2, r3, r4]
  all_goals (generalize walkLoop p _ _ _ _ _ = o; cases o <;> rfl)

mutual
/-- The loop body returns for every item when the styles are set, the indent
is at least 1 and the repeated horizontal glyph fits in `int`. -/
theorem walkItem_total (p : Tree) (d tx : Style) (hd : p.TreeStyle = some d)
    (ht : p.TextStyle = some tx) (h1 : 1 ≤ p.Indent) (h2 : p.Indent ≤ intMax)
    (h3 : ((d.Sprint p.HorizontalString).utf8ByteSize : Int) * p.Indent ≤ intMax) :
    ∀ (item : TreeNode) (len i : Nat) (pfx ret : String),
      ∃ s, walkItem p len i item pfx ret = some s
  | .mk cs t, len, i, pfx, ret => by
    rw [walkItem_eq p d tx hd ht h1 h2 h3]
    split_ifs
    · exact ⟨_, rfl⟩
    · obtain ⟨s, hs⟩ := walkLoop_total p d tx hd ht h1 h2 h3 cs cs.length 0
        (pfx ++ d.Sprint p.VerticalString ++ repeatString " " (p.Indent - 1).toNat) ""
      rw [walkOverTree, hs]; exact ⟨_, rfl⟩
    · exact ⟨_, rfl⟩
    · obtain ⟨s, hs⟩ := walkLoop_total p d tx hd ht h1 h2 h3 cs cs.length 0
        (pfx ++ repeatString " " p.Indent.toNat) ""
      rw [walkOverTree, hs]; exact ⟨_, rfl⟩
    · exact ⟨_, rfl⟩
/-- The loop returns for every list when the styles are set, the indent is at
least 1 and the repeated horizontal glyph fits in `int`. -/
theorem walkLoop_total (p : Tree) (d tx : Style) (hd : p.TreeStyle = some d)
    (ht : p.TextStyle = some tx) (h1 : 1 ≤ p.Indent) (h2 : p.Indent ≤ intMax)
    (h3 : ((d.Sprint p.HorizontalString).utf8ByteSize : Int) * p.Indent ≤ intMax) :
    ∀ (rest : List TreeNode) (len i : Nat) (pfx ret : String),
      ∃ s, walkLoop p len i rest pfx ret = some s
  | [], len, i, pfx, ret => ⟨ret, by simp [walkLoop]⟩
  | item :: rest, len, i, pfx, ret => by
    obtain ⟨a, ha⟩ := walkItem_total p d tx hd ht h1 h2 h3 item len i pfx ret
    obtain ⟨b, hb⟩ := walkLoop_total p d tx hd ht h1 h2 h3 rest len (i + 1) pfx a
    exact ⟨b, by simp [walkLoop, ha, hb]⟩
end

/-! ## Parser: the index loop is the functional view -/

theorem clampNeg_text (r : LeveledListItem) : (clampNeg r).Text = r.Text := by
  unfold clampNeg; split <;> rfl

theorem getElem?_append_length {α : Type} (pre : List α) (x : α) (rest : List α) :
    (pre ++ x :: rest)[pre.length]? = some x := by
  induction pre with
  | nil => simp
  | cons a pre ih => simpa using ih

theorem getElem?_append_length_succ {α : Type} (pre : List α) (x : α) (rest : List α) :
    (pre ++ x :: rest)[pre.length + 1]? = rest.head? := by
  induction pre with
  | nil => cases rest <;> simp
  | cons a pre ih => simpa using ih

theorem set_append_length {α : Type} (pre : List α) (x y : α) (rest : List α) :
    (pre ++ x :: rest).set pre.length y = pre ++ y :: rest := by
  induction pre with
  | nil => simp
  | cons a pre ih => simp [ih]

theorem set_append_length_succ {α : Type} (pre : List α) (x y z : α) (rest : List α) :
    (pre ++ x :: y :: rest).set (pre.length + 1) z = pre ++ x :: z :: rest := by
  induction pre with
  | nil => simp
  | cons a pre ih => simp [ih]

theorem parseStep_append (pre : LeveledList) (record : LeveledListItem) (rest : LeveledList)
    (root : TreeNode) :
    parseStep pre.length (pre ++ record :: rest) root =
      (pre ++ clampNeg record ::
          (match rest with
            | [] => []
            | next :: rest1 => clampNext (clampNeg record).Level next :: rest1),
        appendAtDepth (clampNeg record).Level.toNat root (.mk [] (clampNeg record).Text)) := by
  unfold parseStep
  rw [getElem?_append_length]
  simp only
  have hitems : (if record.Level < 0 then
      (pre ++ record :: rest).set pre.length { record with Level := 0 }
      else pre ++ record :: rest) = pre ++ clampNeg record :: rest := by
    unfold clampNeg
    split
    · rw [set_append_length]
    · rfl
  have hrec : (if record.Level < 0 then { record with Level := 0 } else record) = clampNeg record := rfl
  rw [hitems, hrec]
  cases rest with
  | nil => simp
  | cons next rest1 =>
    have hne : ((pre ++ clampNeg record :: next :: rest1).length : Int) - 1 ≠ (pre.length : Int) := by
      simp only [List.length_append, List.length_cons]
      push_cast
      omega
    rw [if_pos hne, getElem?_append_length_succ]
    simp only [List.head?_cons]
    unfold clampNext
    split
    · rw [set_append_length_succ]
    · rfl

theorem parseLoop_append (rest : LeveledList) :
    ∀ (pre : LeveledList) (record : LeveledListItem) (root : TreeNode),
      parseLoop (rest.length + 1) pre.length (pre ++ record :: rest) root =
        (pre ++ (parseFrom record rest root).1, (parseFrom record rest root).2) := by
  induction rest with
  | nil =>
    intro pre record root
    simp only [List.length_nil, parseLoop, parseStep_append, parseFrom]
    cases appendAtDepth (clampNeg record).Level.toNat root (.mk [] (clampNeg record).Text) <;> rfl
  | cons next rest ih =>
    intro pre record root
    simp only [List.length_cons, parseLoop, parseStep_append, parseFrom]
    cases appendAtDepth (clampNeg record).Level.toNat root (.mk [] (clampNeg record).Text) with
    | none => rfl
    | some root1 =>
      simp only
      have h := ih (pre ++ [clampNeg record]) (clampNext (clampNeg record).Level next) root1
      simp only [List.length_append, List.length_cons, List.length_nil, List.append_assoc,
        List.singleton_append, Nat.zero_add] at h
      exact h

/-- NewTreeFromLeveledList in terms of the functional view of its loop. -/
theorem NewTreeFromLeveledList_cons (first : LeveledListItem) (rest : LeveledList) :
    NewTreeFromLeveledList (first :: rest) = parseFrom first rest (.mk [] first.Text) := by
  have h := parseLoop_append rest [] first (.mk [] first.Text)
  simpa [NewTreeFromLeveledList] using h

/-! ## Parser: descent and insertion -/

theorem getElem?_last_eq {α : Type} (cs : List α) (c : α) (h : cs[cs.length - 1]? = some c) :
    cs = cs.dropLast ++ [c] := by
  cases cs using List.reverseRecOn with
  | nil => simp at h
  | append_singleton init x =>
    have h2 : (init ++ [x])[init.length]? = some x := getElem?_append_length init x []
    simp only [List.length_append, List.length_cons, List.length_nil, Nat.zero_add,
      Nat.add_sub_cancel] at h
    rw [h2] at h
    simp only [Option.some.injEq] at h
    simp [h]

theorem canDescend_pred : ∀ (k : Nat) (node : TreeNode),
    canDescend (k + 1) node = true → canDescend k node = true
  | 0, _, _ => rfl
  | k + 1, .mk cs t, h => by
    simp only [canDescend] at h ⊢
    cases hc : cs[cs.length - 1]? with
    | none => simp [hc] at h
    | some c =>
      simp only [hc] at h ⊢
      exact canDescend_pred k c h

theorem canDescend_le (j k : Nat) (node : TreeNode) (hjk : j ≤ k)
    (h : canDescend k node = true) : canDescend j node = true := by
  induction k with
  | zero =>
    have : j = 0 := by omega
    subst this; exact h
  | succ k ih =>
    rcases Nat.lt_or_ge j (k + 1) with hlt | hge
    · exact ih (by omega) (canDescend_pred k node h)
    · have : j = k + 1 := by omega
      subst this; exact h

theorem appendAtDepth_of_canDescend : ∀ (k : Nat) (node child : TreeNode),
    canDescend k node = true → ∃ r, appendAtDepth k node child = some r
  | 0, .mk cs t, child, _ => ⟨_, rfl⟩
  | k + 1, .mk cs t, child, h => by
    simp only [canDescend] at h
    simp only [appendAtDepth]
    cases hc : cs[cs.length - 1]? with
    | none => simp [hc] at h
    | some c =>
      simp only [hc] at h ⊢
      obtain ⟨r, hr⟩ := appendAtDepth_of_canDescend k c child h
      rw [hr]
      exact ⟨_, rfl⟩

theorem canDescend_appendAtDepth : ∀ (k : Nat) (node child r : TreeNode),
    appendAtDepth k node child = some r → canDescend (k + 1) r = true
  | 0, .mk cs t, child, r, h => by
    simp only [appendAtDepth, Option.some.injEq] at h
    subst h
    have : (cs ++ [child])[(cs ++ [child]).length - 1]? = some child := by
      simp
    simp only [canDescend, this]
  | k + 1, .mk cs t, child, r, h => by
    simp only [appendAtDepth] at h
    cases hc : cs[cs.length - 1]? with
    | none => simp [hc] at h
    | some c =>
      simp only [hc] at h
      cases hr : appendAtDepth k c child with
      | none => simp [hr] at h
      | some c1 =>
        simp only [hr, Option.some.injEq] at h
        subst h
        obtain ⟨init, rfl⟩ : ∃ init, cs = init ++ [c] := ⟨_, getElem?_last_eq cs c hc⟩
        have hlen : (init ++ [c]).length - 1 = init.length := by simp
        rw [hlen, set_append_length]
        have : (init ++ [c1])[(init ++ [c1]).length - 1]? = some c1 := by
          simp
        rw [canDescend]
        simp only [this]
        exact canDescend_appendAtDepth k c child c1 hr

theorem preorderList_append (d : Int) (cs cs1 : List TreeNode) :
    preorderList d (cs ++ cs1) = preorderList d cs ++ preorderList d cs1 := by
  induction cs with
  | nil => simp [preorderList]
  | cons c cs ih => simp [preorderList, ih]

theorem preorderList_singleton (d : Int) (c : TreeNode) :
    preorderList d [c] = preorderNode d c := by
  simp [preorderList]

theorem appendAtDepth_text (k : Nat) (node child r : TreeNode)
    (h : appendAtDepth k node child = some r) : r.Text = node.Text := by
  cases node with
  | mk cs t =>
    cases k with
    | zero =>
      simp only [appendAtDepth, Option.some.injEq] at h
      subst h; rfl
    | succ k =>
      simp only [appendAtDepth] at h
      cases hc : cs[cs.length - 1]? with
      | none => simp [hc] at h
      | some c =>
        simp only [hc] at h
        cases hr : appendAtDepth k c child with
        | none => simp [hr] at h
        | some c1 =>
          simp only [hr, Option.some.injEq] at h
          subst h; rfl

theorem preorderNode_eq (d : Int) (node : TreeNode) :
    preorderNode d node = (d, node.Text) :: preorderList (d + 1) node.Children := by
  cases node with
  | mk cs t => simp [preorderNode, TreeNode.Text, TreeNode.Children]

theorem preorder_appendAtDepth : ∀ (k : Nat) (node child r : TreeNode) (d : Int),
    appendAtDepth k node child = some r →
      preorderList d r.Children = preorderList d node.Children ++ preorderNode (d + k) child
  | 0, .mk cs t, child, r, d, h => by
    simp only [appendAtDepth, Option.some.injEq] at h
    subst h
    simp [TreeNode.Children, preorderList_append, preorderList_singleton]
  | k + 1, .mk cs t, child, r, d, h => by
    simp only [appendAtDepth] at h
    cases hc : cs[cs.length - 1]? with
    | none => simp [hc] at h
    | some c =>
      simp only [hc] at h
      cases hr : appendAtDepth k c child with
      | none => simp [hr] at h
      | some c1 =>
        simp only [hr, Option.some.injEq] at h
        subst h
        obtain ⟨init, rfl⟩ : ∃ init, cs = init ++ [c] := ⟨_, getElem?_last_eq cs c hc⟩
        have hlen : (init ++ [c]).length - 1 = init.length := by simp
        rw [hlen, set_append_length]
        have ih := preorder_appendAtDepth k c child c1 (d + 1) hr
        have htext := appendAtDepth_text k c child c1 hr
        have e : d + ((k + 1 : Nat) : Int) = d + 1 + (k : Int) := by push_cast; ring
        change preorderList d (init ++ [c1]) =
          preorderList d (init ++ [c]) ++ preorderNode (d + ((k + 1 : Nat) : Int)) child
        rw [e]
        simp only [preorderList_append, preorderList_singleton,
          preorderNode_eq d c, preorderNode_eq d c1, ih, htext, List.append_assoc,
          List.cons_append]

/-! ## Parser: level normalization -/

theorem clampNeg_level_nonneg (r : LeveledListItem) : 0 ≤ (clampNeg r).Level := by
  unfold clampNeg; split
  · exact le_refl _
  · omega

theorem clampNeg_isInt (r : LeveledListItem) (h : IsInt r.Level) : IsInt (clampNeg r).Level := by
  unfold clampNeg; split
  · show IsInt 0
    unfold IsInt intMin intMax; omega
  · exact h

theorem clampNeg_of_nonneg (r : LeveledListItem) (h : 0 ≤ r.Level) : clampNeg r = r := by
  unfold clampNeg; rw [if_neg (by omega)]

theorem clampNext_text (c : Int) (n : LeveledListItem) : (clampNext c n).Text = n.Text := by
  unfold clampNext; split <;> rfl

theorem clampNext_isInt (c : Int) (n : LeveledListItem)
    (hn : IsInt n.Level) : IsInt (clampNext c n).Level := by
  unfold clampNext intSub intAdd wrapInt
  unfold IsInt intMin intMax at *
  split
  · simp only; omega
  · exact hn

theorem clampNext_le (c : Int) (n : LeveledListItem) (hc0 : 0 ≤ c) (hc : IsInt c)
    (hn : IsInt n.Level) : (clampNeg (clampNext c n)).Level ≤ c + 1 := by
  unfold clampNeg clampNext intSub intAdd wrapInt
  unfold IsInt intMin intMax at *
  split_ifs <;> (try dsimp only) <;> omega

theorem parseFrom_ok : ∀ (rest : LeveledList) (record : LeveledListItem) (root : TreeNode),
    IsInt record.Level → LeveledList.InRange rest →
    canDescend (clampNeg record).Level.toNat root = true →
    ∃ t, parseFrom record rest root = (normalize record rest, some t) ∧
      t.Text = root.Text ∧
      preorderList 0 t.Children = preorderList 0 root.Children ++
        (normalize record rest).map (fun it => (it.Level, it.Text))
  | [], record, root, _, _, hd => by
    obtain ⟨r, hr⟩ := appendAtDepth_of_canDescend _ root (.mk [] (clampNeg record).Text) hd
    refine ⟨r, ?_, appendAtDepth_text _ _ _ _ hr, ?_⟩
    · simp [parseFrom, normalize, hr]
    · rw [preorder_appendAtDepth _ _ _ _ 0 hr]
      have h0 := clampNeg_level_nonneg record
      simp [normalize, preorderNode, preorderList, Int.toNat_of_nonneg h0]
  | next :: rest, record, root, hrec, hrest, hd => by
    obtain ⟨r, hr⟩ := appendAtDepth_of_canDescend _ root (.mk [] (clampNeg record).Text) hd
    have h0 := clampNeg_level_nonneg record
    have hi := clampNeg_isInt record hrec
    have hnext : IsInt next.Level := hrest next (List.mem_cons_self _ _)
    have hrest1 : LeveledList.InRange rest := fun it hit => hrest it (List.mem_cons_of_mem _ hit)
    have hle := clampNext_le (clampNeg record).Level next h0 hi hnext
    have hd1 : canDescend (clampNeg (clampNext (clampNeg record).Level next)).Level.toNat r = true := by
      apply canDescend_le _ ((clampNeg record).Level.toNat + 1) r _
        (canDescend_appendAtDepth _ _ _ _ hr)
      omega
    obtain ⟨t, ht, htext, hpre⟩ := parseFrom_ok rest (clampNext (clampNeg record).Level next) r
      (clampNext_isInt _ _ hnext) hrest1 hd1
    refine ⟨t, ?_, ?_, ?_⟩
    · simp [parseFrom, normalize, hr, ht]
    · rw [htext, appendAtDepth_text _ _ _ _ hr]
    · rw [hpre, preorder_appendAtDepth _ _ _ _ 0 hr]
      simp [normalize, preorderNode, preorderList, Int.toNat_of_nonneg h0]

theorem normalize_eq_cons (record : LeveledListItem) (rest : LeveledList) :
    ∃ tl, normalize record rest = clampNeg record :: tl := by
  cases rest with
  | nil => exact ⟨[], rfl⟩
  | cons next rest => exact ⟨_, rfl⟩

theorem normalize_text : ∀ (rest : LeveledList) (record : LeveledListItem),
    (normalize record rest).map (fun it => it.Text) = (record :: rest).map (fun it => it.Text)
  | [], record => by simp [normalize, clampNeg_text]
  | next :: rest, record => by
    simp [normalize, clampNeg_text, normalize_text rest, clampNext_text]

theorem normalize_clamped : ∀ (rest : LeveledList) (record : LeveledListItem),
    IsInt record.Level → LeveledList.InRange rest → LevelsClamped (normalize record rest)
  | [], record, _, _ => by
    refine ⟨?_, ?_⟩
    · intro it hit
      simp only [normalize, List.mem_singleton] at hit
      subst hit
      exact clampNeg_level_nonneg record
    · simp [normalize]
  | next :: rest, record, hrec, hrest => by
    have h0 := clampNeg_level_nonneg record
    have hi := clampNeg_isInt record hrec
    have hnext : IsInt next.Level := hrest next (List.mem_cons_self _ _)
    have hrest1 : LeveledList.InRange rest := fun it hit => hrest it (List.mem_cons_of_mem _ hit)
    have ih := normalize_clamped rest (clampNext (clampNeg record).Level next)
      (clampNext_isInt _ _ hnext) hrest1
    obtain ⟨tl, htl⟩ := normalize_eq_cons (clampNext (clampNeg record).Level next) rest
    refine ⟨?_, ?_⟩
    · intro it hit
      simp only [normalize, List.mem_cons] at hit
      rcases hit with hit | hit
      · subst hit; exact h0
      · exact ih.1 it hit
    · simp only [normalize]
      rw [htl, List.chain'_cons]
      refine ⟨clampNext_le _ _ h0 hi hnext, ?_⟩
      rw [← htl]
      exact ih.2

theorem clampNext_eq_spec (c : Int) (n : LeveledListItem) (hc0 : 0 ≤ c) (hc : c ≤ intMax)
    (hn : intMin < n.Level ∧ n.Level ≤ intMax) :
    clampNext c n = specClampNext c n ∧
      intMin < (clampNext c n).Level ∧ (clampNext c n).Level ≤ intMax := by
  unfold clampNext specClampNext intSub intAdd wrapInt
  unfold intMin intMax at *
  split_ifs <;> (try dsimp only at *) <;>
    first
      | (exfalso; omega)
      | (refine ⟨?_, ?_, ?_⟩ <;> first | rfl | omega | (congr 1; omega))

/-- Away from the smallest `int`, the levels the loop leaves in the slice are
the levels of the spec's normalization. -/
theorem normalize_eq_spec : ∀ (rest : LeveledList) (record : LeveledListItem),
    intMin < record.Level ∧ record.Level ≤ intMax →
    (∀ it ∈ rest, intMin < it.Level ∧ it.Level ≤ intMax) →
    normalize record rest = specNormalizeFrom record rest
  | [], record, _, _ => by
    simp only [normalize, specNormalizeFrom, clampNeg]
  | next :: rest, record, hrec, hrest => by
    have h0 := clampNeg_level_nonneg record
    have hi : (clampNeg record).Level ≤ intMax := by
      unfold clampNeg
      unfold intMax at *
      split <;> (try dsimp only) <;> omega
    have hnext := hrest next (List.mem_cons_self _ _)
    have hrest1 : ∀ it ∈ rest, intMin < it.Level ∧ it.Level ≤ intMax :=
      fun it hit => hrest it (List.mem_cons_of_mem _ hit)
    obtain ⟨e, hb⟩ := clampNext_eq_spec (clampNeg record).Level next h0 hi hnext
    have ih := normalize_eq_spec rest (clampNext (clampNeg record).Level next) hb hrest1
    have hl : (clampNeg record).Level = if record.Level < 0 then 0 else record.Level := by
      unfold clampNeg; split <;> rfl
    rw [e] at ih
    rw [hl] at ih e
    simp only [normalize, specNormalizeFrom, hl, e, ih]
    simp only [clampNeg]

theorem clampNeg_idem (r : LeveledListItem) : clampNeg (clampNeg r) = clampNeg r :=
  clampNeg_of_nonneg _ (clampNeg_level_nonneg r)

theorem clampNext_fix (c : Int) (n : LeveledListItem) (hc0 : 0 ≤ c) (hc : IsInt c)
    (hn : IsInt n.Level) :
    clampNext c (clampNeg (clampNext c n)) = clampNeg (clampNext c n) := by
  have hle := clampNext_le c n hc0 hc hn
  have h0 := clampNeg_level_nonneg (clampNext c n)
  generalize clampNeg (clampNext c n) = m at hle h0
  unfold clampNext intSub wrapInt
  unfold IsInt intMin intMax at hc
  rw [if_neg]
  omega

theorem clampNext_idem (c : Int) (n : LeveledListItem) :
    clampNext c (clampNext c n) = clampNext c n := by
  unfold clampNext
  split_ifs <;> rfl

theorem appendAtDepth_leaf_pos (k : Nat) (hk : 0 < k) (t : String) (child : TreeNode) :
    appendAtDepth k (.mk [] t) child = none := by
  cases k with
  | zero => omega
  | succ k => simp [appendAtDepth]

/-- Parsing the rewritten items again gives the same result, when the first
descent succeeds. -/
theorem parseFrom_normalize : ∀ (rest : LeveledList) (record : LeveledListItem) (root : TreeNode)
    (tl : LeveledList),
    IsInt record.Level → LeveledList.InRange rest →
    canDescend (clampNeg record).Level.toNat root = true →
    normalize record rest = clampNeg record :: tl →
    parseFrom (clampNeg record) tl root = parseFrom record rest root
  | [], record, root, tl, _, _, _, htl => by
    simp only [normalize, List.cons.injEq, true_and] at htl
    subst htl
    simp only [parseFrom, clampNeg_idem]
  | next :: rest, record, root, tl, hrec, hrest, hd, htl => by
    simp only [normalize, List.cons.injEq, true_and] at htl
    obtain ⟨r, hr⟩ := appendAtDepth_of_canDescend _ root (.mk [] (clampNeg record).Text) hd
    have h0 := clampNeg_level_nonneg record
    have hi := clampNeg_isInt record hrec
    have hnext : IsInt next.Level := hrest next (List.mem_cons_self _ _)
    have hrest1 : LeveledList.InRange rest := fun it hit => hrest it (List.mem_cons_of_mem _ hit)
    have hle := clampNext_le (clampNeg record).Level next h0 hi hnext
    have hd1 : canDescend (clampNeg (clampNext (clampNeg record).Level next)).Level.toNat r = true := by
      apply canDescend_le _ ((clampNeg record).Level.toNat + 1) r _
        (canDescend_appendAtDepth _ _ _ _ hr)
      omega
    obtain ⟨tl2, htl2⟩ := normalize_eq_cons (clampNext (clampNeg record).Level next) rest
    have ih := parseFrom_normalize rest (clampNext (clampNeg record).Level next) r tl2
      (clampNext_isInt _ _ hnext) hrest1 hd1 htl2
    rw [← htl, htl2]
    simp only [parseFrom, clampNeg_idem, hr, clampNext_fix _ _ h0 hi hnext, ih]

theorem clampNext_clampNeg (c : Int) (n : LeveledListItem) (hc0 : 0 ≤ c)
    (hn : intMin < n.Level ∧ n.Level ≤ intMax) :
    clampNext c (clampNeg n) = clampNeg (clampNext c n) := by
  unfold clampNext clampNeg intSub intAdd wrapInt
  unfold intMin intMax at hn
  split_ifs <;> (try dsimp only at *) <;> first | rfl | (exfalso; omega)

/-- Clamping every negative level to 0 beforehand does not change the parsed
tree, as long as no level is the smallest `int`. -/
theorem parseFrom_map_clampNeg : ∀ (rest : LeveledList) (record : LeveledListItem)
    (root : TreeNode),
    (∀ it ∈ rest, intMin < it.Level ∧ it.Level ≤ intMax) →
    (parseFrom (clampNeg record) (rest.map clampNeg) root).2 = (parseFrom record rest root).2
  | [], record, root, _ => by
    simp only [List.map_nil, parseFrom, clampNeg_idem]
  | next :: rest, record, root, hrest => by
    have h0 := clampNeg_level_nonneg record
    have hnext := hrest next (List.mem_cons_self _ _)
    have hrest1 : ∀ it ∈ rest, intMin < it.Level ∧ it.Level ≤ intMax :=
      fun it hit => hrest it (List.mem_cons_of_mem _ hit)
    simp only [List.map_cons, parseFrom, clampNeg_idem]
    cases appendAtDepth (clampNeg record).Level.toNat root (.mk [] (clampNeg record).Text) with
    | none => rfl
    | some r =>
      simp only
      rw [clampNext_clampNeg _ _ h0 hnext]
      exact parseFrom_map_clampNeg rest _ r hrest1

theorem NewTreeFromLeveledList_map_clampNeg (l : LeveledList)
    (h : ∀ it ∈ l, intMin < it.Level ∧ it.Level ≤ intMax) :
    (NewTreeFromLeveledList (l.map clampNeg)).2 = (NewTreeFromLeveledList l).2 := by
  cases l with
  | nil => rfl
  | cons first rest =>
    rw [List.map_cons, NewTreeFromLeveledList_cons, NewTreeFromLeveledList_cons, clampNeg_text]
    exact parseFrom_map_clampNeg rest first _ (fun it hit => h it (List.mem_cons_of_mem _ hit))

/-- The parser panics exactly on the lists whose first level is positive; on
all other lists it returns a tree. -/
theorem NewTreeFromLeveledList_panics_iff (first : LeveledListItem) (rest : LeveledList)
    (hr : LeveledList.InRange (first :: rest)) :
    (NewTreeFromLeveledList (first :: rest)).2 = none ↔ 0 < first.Level := by
  have hfi : IsInt first.Level := hr first (List.mem_cons_self _ _)
  have hrest : LeveledList.InRange rest := fun it hit => hr it (List.mem_cons_of_mem _ hit)
  rw [NewTreeFromLeveledList_cons]
  constructor
  · intro h
    by_contra hf
    have hd : canDescend (clampNeg first).Level.toNat (.mk [] first.Text) = true := by
      have : (clampNeg first).Level = 0 := by
        unfold clampNeg; split
        · rfl
        · omega
      rw [this]; rfl
    obtain ⟨t, ht, -, -⟩ := parseFrom_ok rest first (.mk [] first.Text) hfi hrest hd
    rw [ht] at h
    simp at h
  · intro hf
    have hcl : clampNeg first = first := clampNeg_of_nonneg first (by omega)
    have hnone : ∀ child, appendAtDepth first.Level.toNat (.mk [] first.Text) child = none :=
      fun child => appendAtDepth_leaf_pos _ (by omega) _ _
    cases rest <;> simp [parseFrom, hcl, hnone]

/-! ## Renderer: the root label is not read -/

mutual
theorem walkItem_root (p : Tree) (r : TreeNode) :
    ∀ (item : TreeNode) (len i : Nat) (pfx ret : String),
      walkItem { p with Root := r } len i item pfx ret = walkItem p len i item pfx ret
  | .mk cs t, len, i, pfx, ret => by
    simp only [walkItem, walkLoop_root p r cs]
/-- The loop does not read `p.Root`. -/
theorem walkLoop_root (p : Tree) (r : TreeNode) :
    ∀ (rest : List TreeNode) (len i : Nat) (pfx ret : String),
      walkLoop { p with Root := r } len i rest pfx ret = walkLoop p len i rest pfx ret
  | [], len, i, pfx, ret => by simp [walkLoop]
  | item :: rest, len, i, pfx, ret => by
    simp only [walkLoop, walkItem_root p r item, walkLoop_root p r rest]
end

/-! ## Renderer: `Srender` -/

theorem Srender_eq (p : Tree) :
    p.Srender =
      (walkOverTree p.Root.Children (withDefaultStyles p) "").map (fun s => (s, none)) := by
  cases p with
  | mk Root TreeStyle TextStyle a b c d e Indent =>
    cases TreeStyle <;> cases TextStyle <;> rfl

/-! ## Renderer: one sibling at a time -/

theorem walkOverTree_cons_eq (p : Tree) (d tx : Style) (hd : p.TreeStyle = some d)
    (ht : p.TextStyle = some tx) (h1 : 1 ≤ p.Indent) (h2 : p.Indent ≤ intMax)
    (h3 : ((d.Sprint p.HorizontalString).utf8ByteSize : Int) * p.Indent ≤ intMax)
    (cs : List TreeNode) (t : String) (rest : List TreeNode) (pfx : String) :
    walkOverTree (.mk cs t :: rest) p pfx =
      (walkOverTree cs p (childPfx d p rest.isEmpty pfx)).bind fun sub =>
        (walkOverTree rest p pfx).map fun tail =>
          pfx ++ connector d p rest.isEmpty (!cs.isEmpty) ++ tx.Sprint t ++ "\n" ++ sub ++ tail := by
  rw [walkOverTree_cons, walkItem_eq p d tx hd ht h1 h2 h3]
  cases rest with
  | nil =>
    cases cs with
    | nil =>
      simp [walkOverTree_nil, connector, childPfx, String.append_assoc]
    | cons c cs =>
      simp only [childPfx, List.isEmpty_nil, reduceIte]
      generalize walkOverTree (c :: cs) p (pfx ++ repeatString " " p.Indent.toNat) = o
      cases o <;> simp [walkOverTree_nil, connector, String.append_assoc]
  | cons r rest =>
    cases cs with
    | nil =>
      generalize walkOverTree (r :: rest) p pfx = o
      cases o <;> simp [walkOverTree_nil, connector, String.append_assoc]
    | cons c cs =>
      simp only [childPfx, List.isEmpty_cons, Bool.false_eq_true, reduceIte]
      generalize walkOverTree (c :: cs) p _ = o
      generalize walkOverTree (r :: rest) p pfx = o2
      cases o <;> cases o2 <;> simp [connector, String.append_assoc]

/-- The text `walkOverTree` emits for the child at any position of a sibling
list, when the indent is at least 1 and the repeated horizontal glyph fits in
`int`: after the text `B` of the earlier siblings (which depends on them only)
comes the line of the child, then the text of its children, then the text of
the later siblings. -/
theorem walkOverTree_at (p : Tree) (d tx : Style) (hd : p.TreeStyle = some d)
    (ht : p.TextStyle = some tx) (h1 : 1 ≤ p.Indent) (h2 : p.Indent ≤ intMax)
    (h3 : ((d.Sprint p.HorizontalString).utf8ByteSize : Int) * p.Indent ≤ intMax)
    (before : List TreeNode) (pfx : String) :
    ∃ B : String, ∀ (item : TreeNode) (after : List TreeNode), ∃ sub tail : String,
      walkOverTree item.Children p (childPfx d p after.isEmpty pfx) = some sub ∧
      walkOverTree after p pfx = some tail ∧
      walkOverTree (before ++ item :: after) p pfx =
        some (B ++ (pfx ++ connector d p after.isEmpty (!item.Children.isEmpty)
          ++ tx.Sprint item.Text ++ "\n") ++ sub ++ tail) := by
  induction before with
  | nil =>
    refine ⟨"", fun item after => ?_⟩
    obtain ⟨sub, hsub⟩ := walkLoop_total p d tx hd ht h1 h2 h3 item.Children
      item.Children.length 0 (childPfx d p after.isEmpty pfx) ""
    obtain ⟨tail, htail⟩ := walkLoop_total p d tx hd ht h1 h2 h3 after after.length 0 pfx ""
    refine ⟨sub, tail, hsub, htail, ?_⟩
    cases item with
    | mk cs t =>
      rw [List.nil_append, walkOverTree_cons_eq p d tx hd ht h1 h2 h3]
      have hsub1 : walkOverTree cs p (childPfx d p after.isEmpty pfx) = some sub := hsub
      have htail1 : walkOverTree after p pfx = some tail := htail
      simp [hsub1, htail1, TreeNode.Children, TreeNode.Text, String.append_assoc]
  | cons x before ih =>
    obtain ⟨B, hB⟩ := ih
    cases x with
    | mk xcs xt =>
      obtain ⟨xsub, hxsub⟩ := walkLoop_total p d tx hd ht h1 h2 h3 xcs xcs.length 0
        (childPfx d p false pfx) ""
      have hxsub1 : walkOverTree xcs p (childPfx d p false pfx) = some xsub := hxsub
      refine ⟨pfx ++ connector d p false (!xcs.isEmpty) ++ tx.Sprint xt ++ "\n" ++ xsub ++ B,
        fun item after => ?_⟩
      obtain ⟨sub, tail, hsub, htail, hall⟩ := hB item after
      refine ⟨sub, tail, hsub, htail, ?_⟩
      have hne : (before ++ item :: after).isEmpty = false := by
        cases before <;> rfl
      rw [List.cons_append, walkOverTree_cons_eq p d tx hd ht h1 h2 h3, hne, hxsub1, hall]
      simp [String.append_assoc]

/-! ## Renderer: one sibling at a time, panics included -/

theorem walkLoop_cons_fold (p : Tree) (c : TreeNode) (cs : List TreeNode) (pfx : String) :
    walkLoop p (cs.length + 1) 0 (c :: cs) pfx "" = walkOverTree (c :: cs) p pfx := rfl

theorem walkOverTree_cons_opt (p : Tree) (d tx : Style) (hd : p.TreeStyle = some d)
    (ht : p.TextStyle = some tx) (cs : List TreeNode) (t : String) (rest : List TreeNode)
    (pfx : String) :
    walkOverTree (.mk cs t :: rest) p pfx =
      (itemLine d tx p rest.isEmpty (!cs.isEmpty) pfx t).bind fun line =>
        (childrenText d p rest.isEmpty cs pfx).bind fun sub =>
          (walkOverTree rest p pfx).map fun tail => line ++ sub ++ tail := by
  rw [walkOverTree_cons]
  cases rest with
  | nil =>
    cases cs with
    | nil =>
      cases hA : stringsRepeat (d.Sprint p.HorizontalString) p.Indent <;>
        simp [walkItem, hd, ht, sprint, itemLine, childrenText, walkOverTree_nil, hA,
          String.append_assoc]
    | cons c cs =>
      cases hB : stringsRepeat (d.Sprint p.HorizontalString) (intSub p.Indent 1) <;>
        cases hC : stringsRepeat " " p.Indent <;>
        simp [walkItem, hd, ht, sprint, itemLine, childrenText, walkOverTree_nil, hB, hC,
          String.append_assoc]
      all_goals simp only [walkLoop_cons_fold]
  | cons r rest =>
    cases cs with
    | nil =>
      cases hA : stringsRepeat (d.Sprint p.HorizontalString) p.Indent <;>
        simp [walkItem, hd, ht, sprint, itemLine, childrenText, walkOverTree_nil, hA,
          String.append_assoc]
    | cons c cs =>
      cases hB : stringsRepeat (d.Sprint p.HorizontalString) (intSub p.Indent 1) <;>
        cases hD : stringsRepeat " " (intSub p.Indent 1) <;>
        simp [walkItem, hd, ht, sprint, itemLine, childrenText, walkOverTree_nil, hB, hD,
          String.append_assoc]
      all_goals first
        | (simp only [walkLoop_cons_fold]; done)
        | (simp only [walkLoop_cons_fold]
           generalize walkOverTree (c :: cs) p _ = o1
           generalize walkOverTree (r :: rest) p pfx = o2
           cases o1 <;> cases o2 <;> simp [String.append_assoc])

mutual
theorem walkOverTree_some_node (p : Tree) (d tx : Style) (hd : p.TreeStyle = some d)
    (ht : p.TextStyle = some tx) :
    ∀ (item : TreeNode) (rest : List TreeNode) (pfx out : String),
      walkOverTree (item :: rest) p pfx = some out →
      0 ≤ p.Indent ∧ ((d.Sprint p.HorizontalString).utf8ByteSize : Int) * p.Indent ≤ intMax
  | .mk cs t, rest, pfx, out, h => by
    rw [walkOverTree_cons_opt p d tx hd ht] at h
    by_cases hne : cs = []
    · subst hne
      cases hA : stringsRepeat (d.Sprint p.HorizontalString) p.Indent with
      | none => cases rest <;> simp [itemLine, hA] at h
      | some r => exact ⟨(stringsRepeat_some _ _ _ hA).1, (stringsRepeat_some _ _ _ hA).2.1⟩
    · cases hs : childrenText d p rest.isEmpty cs pfx with
      | none =>
        rw [hs] at h
        cases itemLine d tx p rest.isEmpty (!cs.isEmpty) pfx t <;> simp at h
      | some sub =>
        have hex : ∃ pfx1, walkOverTree cs p pfx1 = some sub := by
          cases cs with
          | nil => exact absurd rfl hne
          | cons c cs1 =>
            cases rest <;>
              simp only [childrenText, List.isEmpty_nil, List.isEmpty_cons,
                Option.bind_eq_some] at hs <;>
              obtain ⟨sp, -, hsp⟩ := hs <;> exact ⟨_, hsp⟩
        obtain ⟨pfx1, h1⟩ := hex
        exact walkOverTree_some_list p d tx hd ht cs pfx1 sub hne h1
/-- When `walkOverTree` returns on a non-empty list, the indent is not negative
and the horizontal glyph repeated `Indent` times fits in `int`: some node below
the list is childless, and its line repeats the glyph `Indent` times. -/
theorem walkOverTree_some_list (p : Tree) (d tx : Style) (hd : p.TreeStyle = some d)
    (ht : p.TextStyle = some tx) :
    ∀ (list : List TreeNode) (pfx out : String), list ≠ [] →
      walkOverTree list p pfx = some out →
      0 ≤ p.Indent ∧ ((d.Sprint p.HorizontalString).utf8ByteSize : Int) * p.Indent ≤ intMax
  | [], _, _, hne, _ => absurd rfl hne
  | item :: rest, pfx, out, _, h => walkOverTree_some_node p d tx hd ht item rest pfx out h
end

theorem itemLine_of_fits (p : Tree) (d tx : Style) (h1 : 1 ≤ p.Indent) (h2 : p.Indent ≤ intMax)
    (h3 : ((d.Sprint p.HorizontalString).utf8ByteSize : Int) * p.Indent ≤ intMax)
    (isLast hasChildren : Bool) (pfx text : String) :
    itemLine d tx p isLast hasChildren pfx text =
      some (pfx ++ connector d p isLast hasChildren ++ tx.Sprint text ++ "\n") := by
  have e1 : intSub p.Indent 1 = p.Indent - 1 := intSub_one_of_pos _ h1 h2
  have r1 := stringsRepeat_of_fits (d.Sprint p.HorizontalString) p.Indent (by omega) h3
  have r2 := stringsRepeat_of_fits (d.Sprint p.HorizontalString) (p.Indent - 1) (by omega)
    (fits_pred _ _ h3)
  cases isLast <;> cases hasChildren <;>
    simp [itemLine, connector, e1, r1, r2, String.append_assoc]

theorem childrenText_of_fits (p : Tree) (d : Style) (h1 : 1 ≤ p.Indent) (h2 : p.Indent ≤ intMax)
    (isLast : Bool) (children : List TreeNode) (pfx : String) :
    childrenText d p isLast children pfx =
      walkOverTree children p (childPfx d p isLast pfx) := by
  have e1 : intSub p.Indent 1 = p.Indent - 1 := intSub_one_of_pos _ h1 h2
  have r3 := stringsRepeat_of_fits " " p.Indent (by omega)
    (by rw [utf8ByteSize_space]; omega)
  have r4 := stringsRepeat_of_fits " " (p.Indent - 1) (by omega)
    (by rw [utf8ByteSize_space]; omega)
  cases children <;> cases isLast <;>
    simp [childrenText, childPfx, walkOverTree_nil, e1, r3, r4]

/-- The result of `walkOverTree` on a sibling list, child by child and panics
included: the text `B` of the earlier siblings (it depends on them only), the
line of the child, the text of its children, the text of the later siblings.
The text `B` exists when the indent is at least 1 and the repeated horizontal
glyph fits in `int`. -/
theorem walkOverTree_at_opt (p : Tree) (d tx : Style) (hd : p.TreeStyle = some d)
    (ht : p.TextStyle = some tx) (before : List TreeNode) (pfx : String) :
    ∃ B : Option String,
      (∀ (item : TreeNode) (after : List TreeNode),
        walkOverTree (before ++ item :: after) p pfx =
          B.bind fun b =>
            (itemLine d tx p after.isEmpty (!item.Children.isEmpty) pfx item.Text).bind fun line =>
              (childrenText d p after.isEmpty item.Children pfx).bind fun sub =>
                (walkOverTree after p pfx).map fun tail => b ++ line ++ sub ++ tail) ∧
      (1 ≤ p.Indent → p.Indent ≤ intMax →
        ((d.Sprint p.HorizontalString).utf8ByteSize : Int) * p.Indent ≤ intMax →
        ∃ b, B = some b) := by
  induction before with
  | nil =>
    refine ⟨some "", fun item after => ?_, fun _ _ _ => ⟨"", rfl⟩⟩
    cases item with
    | mk cs t =>
      rw [List.nil_append, walkOverTree_cons_opt p d tx hd ht]
      simp [TreeNode.Children, TreeNode.Text]
  | cons x before ih =>
    obtain ⟨B, hB, hBs⟩ := ih
    cases x with
    | mk xcs xt =>
      refine ⟨(itemLine d tx p false (!xcs.isEmpty) pfx xt).bind fun lx =>
        (childrenText d p false xcs pfx).bind fun sx => B.map fun b => lx ++ sx ++ b,
        fun item after => ?_, fun h1 h2 h3 => ?_⟩
      · have hne : (before ++ item :: after).isEmpty = false := by
          cases before <;> rfl
        rw [List.cons_append, walkOverTree_cons_opt p d tx hd ht, hne, hB item after]
        cases itemLine d tx p false (!xcs.isEmpty) pfx xt <;>
          cases childrenText d p false xcs pfx <;>
          cases B <;>
          cases itemLine d tx p after.isEmpty (!item.Children.isEmpty) pfx item.Text <;>
          cases childrenText d p after.isEmpty item.Children pfx <;>
          cases walkOverTree after p pfx <;>
          simp [String.append_assoc]
      · obtain ⟨b, hb⟩ := hBs h1 h2 h3
        obtain ⟨xsub, hxsub⟩ := walkLoop_total p d tx hd ht h1 h2 h3 xcs xcs.length 0
          (childPfx d p false pfx) ""
        have hxsub1 : walkOverTree xcs p (childPfx d p false pfx) = some xsub := hxsub
        rw [itemLine_of_fits p d tx h1 h2 h3, childrenText_of_fits p d h1 h2, hxsub1, hb]
        exact ⟨_, rfl⟩

/-- With an indent of at least 1 and a repeated horizontal glyph that fits in
`int`, every part of the output of `walkOverTree` on a sibling list exists: the
text `b` of the earlier siblings, the line of the child, the text of its
children under the extended prefix and the text of the later siblings. -/
theorem walkOverTree_at_parts (p : Tree) (d tx : Style) (hd : p.TreeStyle = some d)
    (ht : p.TextStyle = some tx) (h1 : 1 ≤ p.Indent) (h2 : p.Indent ≤ intMax)
    (h3 : ((d.Sprint p.HorizontalString).utf8ByteSize : Int) * p.Indent ≤ intMax)
    (before : List TreeNode) (pfx : String) (B : Option String)
    (hB : ∀ (item : TreeNode) (after : List TreeNode),
      walkOverTree (before ++ item :: after) p pfx =
        B.bind fun b =>
          (itemLine d tx p after.isEmpty (!item.Children.isEmpty) pfx item.Text).bind fun line =>
            (childrenText d p after.isEmpty item.Children pfx).bind fun sub =>
              (walkOverTree after p pfx).map fun tail => b ++ line ++ sub ++ tail)
    (b : String) (hb : B = some b) (item : TreeNode) (after : List TreeNode) :
    ∃ sub tail : String,
      childrenText d p after.isEmpty item.Children pfx = some sub ∧
      walkOverTree item.Children p (childPfx d p after.isEmpty pfx) = some sub ∧
      walkOverTree after p pfx = some tail ∧
      itemLine d tx p after.isEmpty (!item.Children.isEmpty) pfx item.Text =
        some (pfx ++ connector d p after.isEmpty (!item.Children.isEmpty) ++ tx.Sprint item.Text
          ++ "\n") ∧
      walkOverTree (before ++ item :: after) p pfx =
        some (b ++ (pfx ++ connector d p after.isEmpty (!item.Children.isEmpty)
          ++ tx.Sprint item.Text ++ "\n") ++ sub ++ tail) := by
  obtain ⟨sub, hsub⟩ := walkLoop_total p d tx hd ht h1 h2 h3 item.Children
    item.Children.length 0 (childPfx d p after.isEmpty pfx) ""
  obtain ⟨tail, htail⟩ := walkLoop_total p d tx hd ht h1 h2 h3 after after.length 0 pfx ""
  have hsub1 : walkOverTree item.Children p (childPfx d p after.isEmpty pfx) = some sub := hsub
  have htail1 : walkOverTree after p pfx = some tail := htail
  have hl := itemLine_of_fits p d tx h1 h2 h3 after.isEmpty (!item.Children.isEmpty) pfx item.Text
  have hc := childrenText_of_fits p d h1 h2 after.isEmpty item.Children pfx
  refine ⟨sub, tail, by rw [hc, hsub1], hsub1, htail1, hl, ?_⟩
  rw [hB item after, hb, hl, hc, hsub1, htail1]
  rfl

/-! ## Renderer: the output line by line -/

theorem joinLines_append (a b : List String) :
    joinLines (a ++ b) = joinLines a ++ joinLines b := by
  induction a with
  | nil => simp [joinLines]
  | cons x a ih => simp [joinLines, ih, String.append_assoc]

theorem linesNode_eq (d tx : Style) (p : Tree) (isLast : Bool) (pfx : String)
    (cs : List TreeNode) (t : String) :
    linesNode d tx p isLast pfx (.mk cs t) =
      (pfx ++ connector d p isLast (!cs.isEmpty), tx.Sprint t) ::
        linesList d tx p (childPfx d p isLast pfx) cs := by
  simp [linesNode]

theorem linesList_cons (d tx : Style) (p : Tree) (pfx : String) (c : TreeNode)
    (cs : List TreeNode) :
    linesList d tx p pfx (c :: cs) =
      linesNode d tx p cs.isEmpty pfx c ++ linesList d tx p pfx cs := by
  simp [linesList]

mutual
theorem walkOverTree_lines_node (p : Tree) (d tx : Style) (hd : p.TreeStyle = some d)
    (ht : p.TextStyle = some tx) (h1 : 1 ≤ p.Indent) (h2 : p.Indent ≤ intMax)
    (h3 : ((d.Sprint p.HorizontalString).utf8ByteSize : Int) * p.Indent ≤ intMax) :
    ∀ (item : TreeNode) (rest : List TreeNode) (pfx : String),
      walkOverTree rest p pfx =
        some (joinLines ((linesList d tx p pfx rest).map fun e => e.1 ++ e.2)) →
      walkOverTree (item :: rest) p pfx =
        some (joinLines ((linesList d tx p pfx (item :: rest)).map fun e => e.1 ++ e.2))
  | .mk cs t, rest, pfx, hrest => by
    have hsub := walkOverTree_lines_list p d tx hd ht h1 h2 h3 cs (childPfx d p rest.isEmpty pfx)
    rw [walkOverTree_cons_eq p d tx hd ht h1 h2 h3, hsub, hrest]
    simp [linesList_cons, linesNode_eq, joinLines, joinLines_append, String.append_assoc]
/-- Refinement: under set styles, an indent of at least 1 and a repeated
horizontal glyph that fits in `int`, `walkOverTree` returns the lines of the
spec's renderer, each followed by a newline. -/
theorem walkOverTree_lines_list (p : Tree) (d tx : Style) (hd : p.TreeStyle = some d)
    (ht : p.TextStyle = some tx) (h1 : 1 ≤ p.Indent) (h2 : p.Indent ≤ intMax)
    (h3 : ((d.Sprint p.HorizontalString).utf8ByteSize : Int) * p.Indent ≤ intMax) :
    ∀ (list : List TreeNode) (pfx : String),
      walkOverTree list p pfx =
        some (joinLines ((linesList d tx p pfx list).map fun e => e.1 ++ e.2))
  | [], pfx => by simp [walkOverTree_nil, linesList, joinLines]
  | item :: rest, pfx =>
    walkOverTree_lines_node p d tx hd ht h1 h2 h3 item rest pfx
      (walkOverTree_lines_list p d tx hd ht h1 h2 h3 rest pfx)
end

/-! ## Renderer: labels, columns and newlines of the lines -/

theorem repeatString_data (s : String) (n : Nat) :
    (repeatString s n).data = (List.replicate n s.data).flatten := by
  simp [repeatString, String.data_join]

theorem repeatString_length (s : String) (n : Nat) :
    (repeatString s n).length = n * s.length := by
  have h : ∀ (l : List Char) (m : Nat), (List.replicate m l).flatten.length = m * l.length := by
    intro l m
    induction m with
    | zero => simp
    | succ m ih => simp [List.replicate_succ, ih, Nat.succ_mul, Nat.add_comm]
  show (repeatString s n).data.length = n * s.data.length
  rw [repeatString_data, h]

theorem NoNewline_append (a b : String) : NoNewline (a ++ b) ↔ NoNewline a ∧ NoNewline b := by
  simp [NoNewline, not_or]

theorem NoNewline_repeatString (s : String) (n : Nat) (h : NoNewline s) :
    NoNewline (repeatString s n) := by
  unfold NoNewline at *
  rw [repeatString_data]
  intro hmem
  rw [List.mem_flatten] at hmem
  obtain ⟨l, hl, hc⟩ := hmem
  rw [List.eq_of_mem_replicate hl] at hc
  exact h hc

theorem NoNewline_space : NoNewline " " := by decide

mutual
theorem linesNode_labels (d tx : Style) (p : Tree) :
    ∀ (item : TreeNode) (isLast : Bool) (pfx : String) (k : Int),
      (linesNode d tx p isLast pfx item).map (fun e => e.2) =
        (preorderNode k item).map (fun e => tx.Sprint e.2)
  | .mk cs t, isLast, pfx, k => by
    simp [linesNode_eq, preorderNode,
      linesList_labels d tx p cs (childPfx d p isLast pfx) (k + 1)]
/-- The labels of the lines are the decorated labels of the nodes in
pre-order. -/
theorem linesList_labels (d tx : Style) (p : Tree) :
    ∀ (list : List TreeNode) (pfx : String) (k : Int),
      (linesList d tx p pfx list).map (fun e => e.2) =
        (preorderList k list).map (fun e => tx.Sprint e.2)
  | [], pfx, k => by simp [linesList, preorderList]
  | c :: cs, pfx, k => by
    simp [linesList_cons, preorderList, linesNode_labels d tx p c cs.isEmpty pfx k,
      linesList_labels d tx p cs pfx k]
end

theorem connector_length (p : Tree) (h1 : 1 ≤ p.Indent)
    (hc : p.TopRightCornerString.length = 1) (hdn : p.TopRightDownString.length = 1)
    (hh : p.HorizontalString.length = 1) (hf : p.RightDownLeftString.length = 1)
    (isLast hasChildren : Bool) :
    ((connector idStyle p isLast hasChildren).length : Int) = p.Indent + 1 := by
  cases isLast <;> cases hasChildren <;>
    simp only [connector, idStyle, String.length_append, repeatString_length, hc, hdn, hh, hf] <;>
    omega

theorem childPfx_length (p : Tree) (h1 : 1 ≤ p.Indent) (hv : p.VerticalString.length = 1)
    (isLast : Bool) (pfx : String) :
    ((childPfx idStyle p isLast pfx).length : Int) = pfx.length + p.Indent := by
  have hs : (" " : String).length = 1 := rfl
  cases isLast <;>
    simp only [childPfx, idStyle, String.length_append, repeatString_length, hv, hs,
      Bool.false_eq_true, reduceIte] <;>
    omega

mutual
theorem linesNode_columns (tx : Style) (p : Tree) (h1 : 1 ≤ p.Indent)
    (hc : p.TopRightCornerString.length = 1) (hdn : p.TopRightDownString.length = 1)
    (hh : p.HorizontalString.length = 1) (hv : p.VerticalString.length = 1)
    (hf : p.RightDownLeftString.length = 1) :
    ∀ (item : TreeNode) (isLast : Bool) (pfx : String) (k : Int),
      (pfx.length : Int) = (k - 1) * p.Indent →
      (linesNode idStyle tx p isLast pfx item).map (fun e => ((e.1.length : Int), e.2)) =
        (preorderNode k item).map (fun e => (e.1 * p.Indent + 1, tx.Sprint e.2))
  | .mk cs t, isLast, pfx, k, hk => by
    have hlen := connector_length p h1 hc hdn hh hf isLast (!cs.isEmpty)
    have hch := childPfx_length p h1 hv isLast pfx
    have hk1 : ((childPfx idStyle p isLast pfx).length : Int) = (k + 1 - 1) * p.Indent := by
      rw [hch, hk]; ring
    have ih := linesList_columns tx p h1 hc hdn hh hv hf cs (childPfx idStyle p isLast pfx)
      (k + 1) hk1
    simp only [linesNode_eq, preorderNode, List.map_cons, ih, String.length_append]
    congr 2
    push_cast
    rw [hlen, hk]; ring
/-- With one-character glyphs, the text before the label of a node at depth
`k` has `k * Indent + 1` characters. -/
theorem linesList_columns (tx : Style) (p : Tree) (h1 : 1 ≤ p.Indent)
    (hc : p.TopRightCornerString.length = 1) (hdn : p.TopRightDownString.length = 1)
    (hh : p.HorizontalString.length = 1) (hv : p.VerticalString.length = 1)
    (hf : p.RightDownLeftString.length = 1) :
    ∀ (list : List TreeNode) (pfx : String) (k : Int),
      (pfx.length : Int) = (k - 1) * p.Indent →
      (linesList idStyle tx p pfx list).map (fun e => ((e.1.length : Int), e.2)) =
        (preorderList k list).map (fun e => (e.1 * p.Indent + 1, tx.Sprint e.2))
  | [], pfx, k, _ => by simp [linesList, preorderList]
  | c :: cs, pfx, k, hk => by
    simp only [linesList_cons, preorderList, List.map_append,
      linesNode_columns tx p h1 hc hdn hh hv hf c cs.isEmpty pfx k hk,
      linesList_columns tx p h1 hc hdn hh hv hf cs pfx k hk]
end

theorem connector_noNewline (p : Tree)
    (hc : NoNewline p.TopRightCornerString) (hdn : NoNewline p.TopRightDownString)
    (hh : NoNewline p.HorizontalString) (hf : NoNewline p.RightDownLeftString)
    (isLast hasChildren : Bool) : NoNewline (connector idStyle p isLast hasChildren) := by
  cases isLast <;> cases hasChildren <;>
    simp [connector, idStyle, NoNewline_append, NoNewline_repeatString, hc, hdn, hh, hf]

theorem childPfx_noNewline (p : Tree) (hv : NoNewline p.VerticalString) (isLast : Bool)
    (pfx : String) (hp : NoNewline pfx) : NoNewline (childPfx idStyle p isLast pfx) := by
  cases isLast <;>
    simp [childPfx, idStyle, NoNewline_append, NoNewline_repeatString, NoNewline_space, hv, hp]

mutual
theorem linesNode_noNewline (tx : Style) (p : Tree)
    (hc : NoNewline p.TopRightCornerString) (hdn : NoNewline p.TopRightDownString)
    (hh : NoNewline p.HorizontalString) (hv : NoNewline p.VerticalString)
    (hf : NoNewline p.RightDownLeftString) :
    ∀ (item : TreeNode) (isLast : Bool) (pfx : String), NoNewline pfx →
      ∀ e ∈ linesNode idStyle tx p isLast pfx item, NoNewline e.1
  | .mk cs t, isLast, pfx, hp, e, he => by
    rw [linesNode_eq, List.mem_cons] at he
    rcases he with he | he
    · subst he
      exact (NoNewline_append _ _).2 ⟨hp, connector_noNewline p hc hdn hh hf _ _⟩
    · exact linesList_noNewline tx p hc hdn hh hv hf cs _
        (childPfx_noNewline p hv isLast pfx hp) e he
/-- With newline-free glyphs, the text before each label is newline-free. -/
theorem linesList_noNewline (tx : Style) (p : Tree)
    (hc : NoNewline p.TopRightCornerString) (hdn : NoNewline p.TopRightDownString)
    (hh : NoNewline p.HorizontalString) (hv : NoNewline p.VerticalString)
    (hf : NoNewline p.RightDownLeftString) :
    ∀ (list : List TreeNode) (pfx : String), NoNewline pfx →
      ∀ e ∈ linesList idStyle tx p pfx list, NoNewline e.1
  | [], pfx, _, e, he => by simp [linesList] at he
  | c :: cs, pfx, hp, e, he => by
    rw [linesList_cons, List.mem_append] at he
    rcases he with he | he
    · exact linesNode_noNewline tx p hc hdn hh hv hf c cs.isEmpty pfx hp e he
    · exact linesList_noNewline tx p hc hdn hh hv hf cs pfx hp e he
end

/-! ## Renderer: a zero indent on childless nodes -/

theorem string_eq_empty_of_length (s : String) (h : s.length = 0) : s = "" := by
  cases s with
  | mk data =>
    have hd : data = [] := List.length_eq_zero.1 h
    subst hd
    rfl

/-- With `Indent = 0`, on a list of childless nodes `walkOverTree` returns, as
it does with `Indent = 1`; the second output is longer by one decorated
horizontal glyph per node, and the two are equal when that glyph is empty. -/
theorem walkOverTree_flat (p : Tree) (d tx : Style) (hd : p.TreeStyle = some d)
    (ht : p.TextStyle = some tx) (h0 : p.Indent = 0)
    (hH : ((d.Sprint p.HorizontalString).utf8ByteSize : Int) ≤ intMax) :
    ∀ (cs : List TreeNode) (pfx : String), (∀ c ∈ cs, c.Children = []) →
      ∃ out0 out1 : String,
        walkOverTree cs p pfx = some out0 ∧
        walkOverTree cs { p with Indent := 1 } pfx = some out1 ∧
        out1.length = out0.length + cs.length * (d.Sprint p.HorizontalString).length ∧
        (d.Sprint p.HorizontalString = "" → out0 = out1)
  | [], pfx, _ => ⟨"", "", walkOverTree_nil _ _, walkOverTree_nil _ _, by simp, fun _ => rfl⟩
  | .mk ccs t :: cs, pfx, hflat => by
    have hc : ccs = [] := hflat (.mk ccs t) (List.mem_cons_self _ _)
    subst hc
    obtain ⟨o0, o1, e0, e1, hlen, heq⟩ := walkOverTree_flat p d tx hd ht h0 hH cs pfx
      (fun c hc => hflat c (List.mem_cons_of_mem _ hc))
    have r0 : stringsRepeat (d.Sprint p.HorizontalString) p.Indent =
        some (repeatString (d.Sprint p.HorizontalString) 0) := by
      rw [h0]
      exact stringsRepeat_of_fits _ 0 (by omega) (by unfold intMax; omega)
    have r1 : stringsRepeat (d.Sprint p.HorizontalString) 1 =
        some (repeatString (d.Sprint p.HorizontalString) 1) :=
      stringsRepeat_of_fits _ 1 (by omega) (by omega)
    have l0 : (repeatString (d.Sprint p.HorizontalString) 0).length = 0 := by
      rw [repeatString_length]; omega
    have l1 : (repeatString (d.Sprint p.HorizontalString) 1).length =
        (d.Sprint p.HorizontalString).length := by
      rw [repeatString_length]; omega
    have hd1 : ({ p with Indent := 1 } : Tree).TreeStyle = some d := hd
    have ht1 : ({ p with Indent := 1 } : Tree).TextStyle = some tx := ht
    rw [walkOverTree_cons_opt p d tx hd ht,
      walkOverTree_cons_opt { p with Indent := 1 } d tx hd1 ht1, e0, e1]
    cases hcs : cs.isEmpty <;>
      simp only [itemLine, childrenText, r0, r1, List.isEmpty_nil, Bool.not_true,
        Option.map_some', Option.some_bind, Option.some.injEq, exists_and_left, exists_eq_left']
      <;> refine ⟨?_, ?_⟩
      <;> first
        | (simp only [String.length_append, l0, l1, hlen, List.length_cons]; ring)
        | (intro hempty
           rw [heq hempty, hempty]
           rfl)

/-! ## Renderer: `Srender` line by line -/

/-- When `Srender` returns on a root with children, the indent is not negative
and the decorated horizontal glyph repeated `Indent` times fits in `int`. -/
theorem Srender_some_fits (p : Tree) (r : String × Option String)
    (hne : p.Root.Children ≠ []) (h : p.Srender = some r) :
    0 ≤ p.Indent ∧
      (((p.TreeStyle.getD NewStyle).Sprint p.HorizontalString).utf8ByteSize : Int) * p.Indent
        ≤ intMax := by
  rw [Srender_eq] at h
  cases hw : walkOverTree p.Root.Children (withDefaultStyles p) "" with
  | none => rw [hw] at h; simp at h
  | some out =>
    exact walkOverTree_some_list (withDefaultStyles p) _ _ rfl rfl p.Root.Children "" out hne hw

/-- When the first level is at most 0 the parser returns a root that carries
the label of the first item. -/
theorem NewTreeFromLeveledList_root_text (first : LeveledListItem) (rest : LeveledList)
    (hf : first.Level ≤ 0) (hr : LeveledList.InRange (first :: rest)) :
    ∃ root, (NewTreeFromLeveledList (first :: rest)).2 = some root ∧ root.Text = first.Text := by
  have hfi : IsInt first.Level := hr first (List.mem_cons_self _ _)
  have hrest : LeveledList.InRange rest := fun it hit => hr it (List.mem_cons_of_mem _ hit)
  have hd : canDescend (clampNeg first).Level.toNat (.mk [] first.Text) = true := by
    have : (clampNeg first).Level = 0 := by
      unfold clampNeg; split
      · rfl
      · omega
    rw [this]; rfl
  obtain ⟨t, ht, htext, -⟩ := parseFrom_ok rest first (.mk [] first.Text) hfi hrest hd
  exact ⟨t, by rw [NewTreeFromLeveledList_cons, ht], htext⟩

/-! ## Properties of the specification, C1 to C20 -/

/-- C1 (code defect): on the list `[(1,"A")]`, whose first item has level 1,
the descent indexes the empty `Children` of the root at `len-1 = -1`: the call
panics, it returns no tree. -/
theorem NewTreeFromLeveledList_panics_first_level_pos :
    appendAtDepth 1 (.mk [] "A") (.mk [] "A") = none ∧
      NewTreeFromLeveledList [⟨1, "A"⟩] = ([⟨1, "A"⟩], none) :=
  ⟨rfl, rfl⟩

/-- C2 (code defect): on `[(1,"A"), (-3,"B")]` the call panics in its first
iteration, before the second item is visited; the level sequence left in the
slice keeps the negative level -3, so it is not clamped. -/
theorem NewTreeFromLeveledList_leaves_negative_level :
    NewTreeFromLeveledList [⟨1, "A"⟩, ⟨-3, "B"⟩] = ([⟨1, "A"⟩, ⟨-3, "B"⟩], none) ∧
      ¬ LevelsClamped (NewTreeFromLeveledList [⟨1, "A"⟩, ⟨-3, "B"⟩]).1 := by
  have e : NewTreeFromLeveledList [⟨1, "A"⟩, ⟨-3, "B"⟩] = ([⟨1, "A"⟩, ⟨-3, "B"⟩], none) := rfl
  refine ⟨e, ?_⟩
  rw [e]
  rintro ⟨h, -⟩
  have := h ⟨-3, "B"⟩ (by simp)
  simp at this

/-- C3 (as stated, refuted): for the single-item list `[(0,"A")]` the returned
root is not childless and its rendering is not empty. -/
theorem single_item_root_not_childless :
    ¬ ∃ root, (NewTreeFromLeveledList [⟨0, "A"⟩]).2 = some root ∧ root.Text = "A" ∧
      root.Children = [] ∧
      ({ DefaultTree idStyle idStyle with Root := root }).Srender = some ("", none) := by
  rintro ⟨root, h, -, hc, -⟩
  have e : (NewTreeFromLeveledList [⟨0, "A"⟩]).2 = some (.mk [.mk [] "A"] "A") := rfl
  rw [e] at h
  simp only [Option.some.injEq] at h
  subst h
  simp [TreeNode.Children] at hc

/-- C3 (amended): for every single-item list `[(0, t)]` the parser returns a
root labelled `t` with exactly one child, a childless node labelled `t`, and
leaves the list unchanged; rendering that root with the default glyphs,
indent 2 and identity decoration yields the single line `└──t`. -/
theorem single_item_tree (t : String) :
    NewTreeFromLeveledList [⟨0, t⟩] = ([⟨0, t⟩], some (.mk [.mk [] t] t)) ∧
      ({ DefaultTree idStyle idStyle with Root := .mk [.mk [] t] t }).Srender =
        some ("└──" ++ t ++ "\n", none) := by
  constructor
  · simp [NewTreeFromLeveledList_cons, parseFrom, clampNeg, appendAtDepth]
  · have r : stringsRepeat "─" 2 = some "──" := by decide
    simp [Tree.Srender, DefaultTree, walkOverTree, walkLoop, walkItem, sprint, idStyle, r,
      TreeNode.Children]

/-- C4 (as stated, refuted): rendering the tree parsed from
`[(0,"A"), (1,"B"), (1,"C"), (2,"D")]` with the default glyphs, indent 2 and
identity decoration does not give the three lines `├──B`, `└─┬C`, `  └──D`. -/
theorem branching_example_not_three_lines :
    ∃ root, (NewTreeFromLeveledList [⟨0, "A"⟩, ⟨1, "B"⟩, ⟨1, "C"⟩, ⟨2, "D"⟩]).2 = some root ∧
      ({ DefaultTree idStyle idStyle with Root := root }).Srender ≠
        some ("├──B\n└─┬C\n  └──D\n", none) := by
  refine ⟨.mk [.mk [.mk [] "B", .mk [.mk [] "D"] "C"] "A"] "A", rfl, ?_⟩
  have e : ({ DefaultTree idStyle idStyle with
      Root := .mk [.mk [.mk [] "B", .mk [.mk [] "D"] "C"] "A"] "A" }).Srender =
      some ("└─┬A\n  ├──B\n  └─┬C\n    └──D\n", none) := rfl
  rw [e]
  simp

/-- C4 (amended): rendering the tree parsed from
`[(0,"A"), (1,"B"), (1,"C"), (2,"D")]` with the default glyphs, indent 2 and
identity decoration gives exactly the four lines `└─┬A`, `  ├──B`, `  └─┬C`,
`    └──D`, in that order: the first item is itself a child of the root. -/
theorem branching_example_four_lines :
    ∃ root, (NewTreeFromLeveledList [⟨0, "A"⟩, ⟨1, "B"⟩, ⟨1, "C"⟩, ⟨2, "D"⟩]).2 = some root ∧
      ({ DefaultTree idStyle idStyle with Root := root }).Srender =
        some ("└─┬A\n  ├──B\n  └─┬C\n    └──D\n", none) :=
  ⟨.mk [.mk [.mk [] "B", .mk [.mk [] "D"] "C"] "A"] "A", rfl, rfl⟩

/-- C5 (as stated, refuted): with `Indent = 0` and a child that has a child,
the repeat count `Indent-1` is -1 and `Srender` panics; with the largest `int`
as `Indent` and one childless child, the length of the default horizontal
glyph (3 bytes) repeated `Indent` times overflows `int` and `Srender` panics
as well. -/
theorem Srender_panics_indent_zero :
    intSub 0 1 = -1 ∧ stringsRepeat "─" (intSub 0 1) = none ∧
      ({ DefaultTree idStyle idStyle with
          Root := .mk [.mk [.mk [] "B"] "A"] "R", Indent := 0 }).Srender = none ∧
      stringsRepeat "─" 9223372036854775807 = none ∧
      ({ DefaultTree idStyle idStyle with
          Root := .mk [.mk [] "A"] "R", Indent := 9223372036854775807 }).Srender = none := by
  decide

/-- C5 (amended): for every Tree whose `Indent` is at least 1 (any root, any
glyph strings, styles set or nil), both repeat counts `Indent` and `Indent-1`
are non-negative; `Srender` returns a string together with the nil error when
the root has no children or the decorated horizontal glyph repeated `Indent`
times fits in `int` (`len * Indent` does not overflow), and it panics in every
other case. -/
theorem Srender_total_of_indent_pos (p : Tree) (h1 : 1 ≤ p.Indent) (h2 : p.Indent ≤ intMax) :
    0 ≤ p.Indent ∧ 0 ≤ intSub p.Indent 1 ∧
      (p.Root.Children = [] ∨
          (((p.TreeStyle.getD NewStyle).Sprint p.HorizontalString).utf8ByteSize : Int) *
            p.Indent ≤ intMax →
        ∃ s, p.Srender = some (s, none)) ∧
      (¬ (p.Root.Children = [] ∨
          (((p.TreeStyle.getD NewStyle).Sprint p.HorizontalString).utf8ByteSize : Int) *
            p.Indent ≤ intMax) →
        p.Srender = none) := by
  refine ⟨by omega, by rw [intSub_one_of_pos _ h1 h2]; omega, ?_, ?_⟩
  · rintro (hc | h3)
    · exact ⟨"", by rw [Srender_eq, hc, walkOverTree_nil]; rfl⟩
    · rw [Srender_eq]
      obtain ⟨s, hs⟩ := walkLoop_total (withDefaultStyles p) _ _ rfl rfl h1 h2 h3
        p.Root.Children p.Root.Children.length 0 "" ""
      exact ⟨s, by simp [walkOverTree, hs]⟩
  · intro hn
    rw [not_or] at hn
    cases hS : p.Srender with
    | none => rfl
    | some r => exact absurd (Srender_some_fits p r hn.1 hS).2 hn.2

/-- Witness for C5 (amended): the default tree with indent 2 and the root of
the branching example; its horizontal glyph has 3 bytes. -/
theorem Srender_total_of_indent_pos_witness :
    (1 : Int) ≤ exampleTree.Indent ∧ exampleTree.Indent ≤ intMax ∧
      (((exampleTree.TreeStyle.getD NewStyle).Sprint exampleTree.HorizontalString).utf8ByteSize
        : Int) * exampleTree.Indent = 6 ∧
      (0 ≤ exampleTree.Indent ∧ 0 ≤ intSub exampleTree.Indent 1 ∧
        (exampleTree.Root.Children = [] ∨
            (((exampleTree.TreeStyle.getD NewStyle).Sprint exampleTree.HorizontalString).utf8ByteSize : Int) *
              exampleTree.Indent ≤ intMax →
          ∃ s, exampleTree.Srender = some (s, none)) ∧
        (¬ (exampleTree.Root.Children = [] ∨
            (((exampleTree.TreeStyle.getD NewStyle).Sprint exampleTree.HorizontalString).utf8ByteSize : Int) *
              exampleTree.Indent ≤ intMax) →
          exampleTree.Srender = none)) :=
  ⟨by decide, by decide, by decide,
    Srender_total_of_indent_pos exampleTree (by decide) (by decide)⟩

/-- C6: connector selection. With identity decoration and `Indent >= 1`, for
every sibling list `before ++ item :: after` and prefix, whatever
`walkOverTree` returns is the text `B` of the earlier siblings, then the line
`prefix + connector + label + "\n"` of the child, then the text of its
children and of the later siblings; the connector is chosen by whether the
child is last (`after` empty) and whether it has children, as in the matrix.
`walkOverTree` returns exactly when the horizontal glyph repeated `Indent`
times fits in `int`; otherwise `strings.Repeat` panics. -/
theorem walkOverTree_connector_selection (p : Tree) (hd : p.TreeStyle = some idStyle)
    (ht : p.TextStyle = some idStyle) (h1 : 1 ≤ p.Indent) (h2 : p.Indent ≤ intMax)
    (before : List TreeNode) (pfx : String) :
    ∃ B : String,
      (∀ (item : TreeNode) (after : List TreeNode) (out : String),
        walkOverTree (before ++ item :: after) p pfx = some out →
        ∃ sub tail : String,
          (∃ pfx1, walkOverTree item.Children p pfx1 = some sub) ∧
          walkOverTree after p pfx = some tail ∧
          out = B ++ (pfx ++
            (match after, item.Children with
              | _ :: _, [] =>
                p.TopRightDownString ++ repeatString p.HorizontalString p.Indent.toNat
              | _ :: _, _ :: _ =>
                p.TopRightDownString ++
                  repeatString p.HorizontalString (p.Indent - 1).toNat ++
                  p.RightDownLeftString
              | [], [] =>
                p.TopRightCornerString ++ repeatString p.HorizontalString p.Indent.toNat
              | [], _ :: _ =>
                p.TopRightCornerString ++
                  repeatString p.HorizontalString (p.Indent - 1).toNat ++
                  p.RightDownLeftString)
            ++ item.Text ++ "\n") ++ sub ++ tail) ∧
      (∀ (item : TreeNode) (after : List TreeNode),
        (∃ out, walkOverTree (before ++ item :: after) p pfx = some out) ↔
          (p.HorizontalString.utf8ByteSize : Int) * p.Indent ≤ intMax) := by
  by_cases h3 : (p.HorizontalString.utf8ByteSize : Int) * p.Indent ≤ intMax
  · obtain ⟨B, hB⟩ := walkOverTree_at p idStyle idStyle hd ht h1 h2 h3 before pfx
    refine ⟨B, fun item after out hout => ?_, fun item after => ?_⟩
    · obtain ⟨sub, tail, hsub, htail, hall⟩ := hB item after
      refine ⟨sub, tail, ⟨_, hsub⟩, htail, ?_⟩
      rw [hall] at hout
      simp only [Option.some.injEq] at hout
      rw [← hout]
      cases item with
      | mk cs t =>
        cases after <;> cases cs <;> simp [connector, idStyle, TreeNode.Children, TreeNode.Text]
    · obtain ⟨sub, tail, -, -, hall⟩ := hB item after
      exact ⟨fun _ => h3, fun _ => ⟨_, hall⟩⟩
  · have hno : ∀ (item : TreeNode) (after : List TreeNode) (out : String),
        walkOverTree (before ++ item :: after) p pfx = some out → False := by
      intro item after out hout
      exact h3 (walkOverTree_some_list p idStyle idStyle hd ht _ pfx out (by simp) hout).2
    refine ⟨"", fun item after out hout => (hno item after out hout).elim, fun item after => ?_⟩
    constructor
    · rintro ⟨out, hout⟩
      exact (hno item after out hout).elim
    · intro h
      exact absurd h h3

/-- Witness for C6: the default tree with identity decoration and indent 2, for a
sibling list that starts with one childless node and the empty prefix. -/
theorem walkOverTree_connector_selection_witness :
    exampleTree.TreeStyle = some idStyle ∧ exampleTree.TextStyle = some idStyle ∧
      1 ≤ exampleTree.Indent ∧ exampleTree.Indent ≤ intMax ∧
      (exampleTree.HorizontalString.utf8ByteSize : Int) * exampleTree.Indent ≤ intMax ∧
      ∃ B : String,
        (∀ (item : TreeNode) (after : List TreeNode) (out : String),
          walkOverTree ([.mk [] "x"] ++ item :: after) exampleTree "" = some out →
          ∃ sub tail : String,
            (∃ pfx1, walkOverTree item.Children exampleTree pfx1 = some sub) ∧
            walkOverTree after exampleTree "" = some tail ∧
            out = B ++ ("" ++
              (match after, item.Children with
                | _ :: _, [] =>
                  exampleTree.TopRightDownString ++ repeatString exampleTree.HorizontalString exampleTree.Indent.toNat
                | _ :: _, _ :: _ =>
                  exampleTree.TopRightDownString ++
                    repeatString exampleTree.HorizontalString (exampleTree.Indent - 1).toNat ++
                    exampleTree.RightDownLeftString
                | [], [] =>
                  exampleTree.TopRightCornerString ++ repeatString exampleTree.HorizontalString exampleTree.Indent.toNat
                | [], _ :: _ =>
                  exampleTree.TopRightCornerString ++
                    repeatString exampleTree.HorizontalString (exampleTree.Indent - 1).toNat ++
                    exampleTree.RightDownLeftString)
              ++ item.Text ++ "\n") ++ sub ++ tail) ∧
        (∀ (item : TreeNode) (after : List TreeNode),
          (∃ out, walkOverTree ([.mk [] "x"] ++ item :: after) exampleTree "" = some out) ↔
            (exampleTree.HorizontalString.utf8ByteSize : Int) * exampleTree.Indent ≤ intMax) :=
  ⟨rfl, rfl, by decide, by decide, by decide,
    walkOverTree_connector_selection exampleTree rfl rfl (by decide) (by decide) [.mk [] "x"] ""⟩

/-- C7: normalization does not change the parsed tree. For every leveled list,
parsing the list as the parser left it (levels rewritten in place) gives the
same result as the first parse, the tree and the list; a tree is returned
whenever the first level is at most 0. In particular `[(0,"A"), (3,"B")]`
and `[(0,"A"), (1,"B")]` both give the root with the node of A as its only
child and B as the only child of that node. -/
theorem NewTreeFromLeveledList_reparse (l : LeveledList) (hr : l.InRange) :
    NewTreeFromLeveledList (NewTreeFromLeveledList l).1 = NewTreeFromLeveledList l ∧
      ((∀ first ∈ l.head?, first.Level ≤ 0) → ∃ root, (NewTreeFromLeveledList l).2 = some root) ∧
      (NewTreeFromLeveledList [⟨0, "A"⟩, ⟨3, "B"⟩]).2 = some (.mk [.mk [.mk [] "B"] "A"] "A") ∧
      (NewTreeFromLeveledList [⟨0, "A"⟩, ⟨1, "B"⟩]).2 = some (.mk [.mk [.mk [] "B"] "A"] "A") := by
  refine ⟨?_, ?_, rfl, rfl⟩
  · cases l with
    | nil => rfl
    | cons first rest =>
      have hfi : IsInt first.Level := hr first (List.mem_cons_self _ _)
      have hrest : LeveledList.InRange rest := fun it hit => hr it (List.mem_cons_of_mem _ hit)
      by_cases hf : first.Level ≤ 0
      · have hd : canDescend (clampNeg first).Level.toNat (.mk [] first.Text) = true := by
          have : (clampNeg first).Level = 0 := by
            unfold clampNeg; split
            · rfl
            · omega
          rw [this]; rfl
        obtain ⟨t, ht, -, -⟩ := parseFrom_ok rest first (.mk [] first.Text) hfi hrest hd
        obtain ⟨tl, htl⟩ := normalize_eq_cons first rest
        rw [NewTreeFromLeveledList_cons, ht]
        simp only
        rw [htl, NewTreeFromLeveledList_cons, clampNeg_text,
          parseFrom_normalize rest first _ tl hfi hrest hd htl, ht, htl]
      · have hcl : clampNeg first = first := clampNeg_of_nonneg first (by omega)
        have hnone : ∀ child, appendAtDepth first.Level.toNat (.mk [] first.Text) child = none :=
          fun child => appendAtDepth_leaf_pos _ (by omega) _ _
        cases rest with
        | nil =>
          simp [NewTreeFromLeveledList_cons, parseFrom, hcl, hnone]
        | cons next rest1 =>
          simp [NewTreeFromLeveledList_cons, parseFrom, hcl, hnone, clampNext_idem]
  · intro hfirst
    cases l with
    | nil => exact ⟨_, rfl⟩
    | cons first rest =>
      have hf : first.Level ≤ 0 := hfirst first (by simp)
      have hfi : IsInt first.Level := hr first (List.mem_cons_self _ _)
      have hrest : LeveledList.InRange rest := fun it hit => hr it (List.mem_cons_of_mem _ hit)
      have hd : canDescend (clampNeg first).Level.toNat (.mk [] first.Text) = true := by
        have : (clampNeg first).Level = 0 := by
          unfold clampNeg; split
          · rfl
          · omega
        rw [this]; rfl
      obtain ⟨t, ht, -, -⟩ := parseFrom_ok rest first (.mk [] first.Text) hfi hrest hd
      exact ⟨t, by rw [NewTreeFromLeveledList_cons, ht]⟩

/-- Witness for C7: the list `[(0,"A"), (3,"B")]`. -/
theorem NewTreeFromLeveledList_reparse_witness :
    LeveledList.InRange [⟨0, "A"⟩, ⟨3, "B"⟩] ∧
      (NewTreeFromLeveledList (NewTreeFromLeveledList [⟨0, "A"⟩, ⟨3, "B"⟩]).1 =
          NewTreeFromLeveledList [⟨0, "A"⟩, ⟨3, "B"⟩] ∧
        ((∀ first ∈ ([⟨0, "A"⟩, ⟨3, "B"⟩] : LeveledList).head?, first.Level ≤ 0) →
          ∃ root, (NewTreeFromLeveledList [⟨0, "A"⟩, ⟨3, "B"⟩]).2 = some root) ∧
        (NewTreeFromLeveledList [⟨0, "A"⟩, ⟨3, "B"⟩]).2 =
          some (.mk [.mk [.mk [] "B"] "A"] "A") ∧
        (NewTreeFromLeveledList [⟨0, "A"⟩, ⟨1, "B"⟩]).2 =
          some (.mk [.mk [.mk [] "B"] "A"] "A")) :=
  ⟨by decide, NewTreeFromLeveledList_reparse [⟨0, "A"⟩, ⟨3, "B"⟩] (by decide)⟩

/-- C8 (code defect): a level equal to the smallest `int` is not treated as
level 0. In `[(0,"A"), (-9223372036854775808,"B")]` the test `Level-1 > 0`
wraps around to the largest `int`, B is rewritten to level 1 and becomes a
child of the node of A; with the level replaced by 0, B is a sibling of A. -/
theorem NewTreeFromLeveledList_min_level_overflow :
    intSub (-9223372036854775808) 1 = 9223372036854775807 ∧
      NewTreeFromLeveledList [⟨0, "A"⟩, ⟨-9223372036854775808, "B"⟩] =
        ([⟨0, "A"⟩, ⟨1, "B"⟩], some (.mk [.mk [.mk [] "B"] "A"] "A")) ∧
      NewTreeFromLeveledList [⟨0, "A"⟩, ⟨0, "B"⟩] =
        ([⟨0, "A"⟩, ⟨0, "B"⟩], some (.mk [.mk [] "A", .mk [] "B"] "A")) ∧
      (NewTreeFromLeveledList [⟨0, "A"⟩, ⟨-9223372036854775808, "B"⟩]).2 ≠
        (NewTreeFromLeveledList [⟨0, "A"⟩, ⟨0, "B"⟩]).2 := by
  have e1 : NewTreeFromLeveledList [⟨0, "A"⟩, ⟨-9223372036854775808, "B"⟩] =
      ([⟨0, "A"⟩, ⟨1, "B"⟩], some (.mk [.mk [.mk [] "B"] "A"] "A")) := rfl
  have e2 : NewTreeFromLeveledList [⟨0, "A"⟩, ⟨0, "B"⟩] =
      ([⟨0, "A"⟩, ⟨0, "B"⟩], some (.mk [.mk [] "A", .mk [] "B"] "A")) := rfl
  refine ⟨by decide, e1, e2, ?_⟩
  rw [e1, e2]
  simp

/-- C9: one node per item, in input order, at the normalized depth. For every
leveled list whose first level is at most 0 the parser returns a root and
leaves in the slice the list `normalizeList l`, computed from the levels it
received (the current level clamped at 0, the next one clamped against it);
the pre-order listing of the root's descendants as (depth below the root minus
1, label) is that list of (level, label) pairs. When no level is the smallest
`int`, that list is the normalization of the spec; it has the labels of the
input in input order and is level-clamped. On
`[(0,"A"), (5,"B"), (-2,"C"), (1,"D")]` the levels become 0, 1, 0, 1 and the
tree is `A[B], C[D]` under the root. -/
theorem NewTreeFromLeveledList_preorder (l : LeveledList)
    (hfirst : ∀ first ∈ l.head?, first.Level ≤ 0) (hr : l.InRange) :
    (∃ root, NewTreeFromLeveledList l = (normalizeList l, some root) ∧
        preorderList 0 root.Children =
          (normalizeList l).map (fun it => (it.Level, it.Text)) ∧
        ((∀ it ∈ l, intMin < it.Level) → normalizeList l = specNormalize l) ∧
        (normalizeList l).map (fun it => it.Text) = l.map (fun it => it.Text) ∧
        LevelsClamped (normalizeList l)) ∧
      NewTreeFromLeveledList [⟨0, "A"⟩, ⟨5, "B"⟩, ⟨-2, "C"⟩, ⟨1, "D"⟩] =
        ([⟨0, "A"⟩, ⟨1, "B"⟩, ⟨0, "C"⟩, ⟨1, "D"⟩],
          some (.mk [.mk [.mk [] "B"] "A", .mk [.mk [] "D"] "C"] "A")) := by
  refine ⟨?_, rfl⟩
  cases l with
  | nil =>
    refine ⟨.mk [] "", rfl, ?_, fun _ => rfl, rfl, ?_⟩
    · simp [normalizeList, TreeNode.Children, preorderList]
    · simp [normalizeList, LevelsClamped]
  | cons first rest =>
    have hf : first.Level ≤ 0 := hfirst first (by simp)
    have hfi : IsInt first.Level := hr first (List.mem_cons_self _ _)
    have hrest : LeveledList.InRange rest := fun it hit => hr it (List.mem_cons_of_mem _ hit)
    have hd : canDescend (clampNeg first).Level.toNat (.mk [] first.Text) = true := by
      have : (clampNeg first).Level = 0 := by
        unfold clampNeg; split
        · rfl
        · omega
      rw [this]; rfl
    obtain ⟨t, ht, -, hpre⟩ := parseFrom_ok rest first (.mk [] first.Text) hfi hrest hd
    refine ⟨t, by rw [NewTreeFromLeveledList_cons, ht]; rfl, ?_, ?_, normalize_text rest first,
      normalize_clamped rest first hfi hrest⟩
    · simpa [TreeNode.Children, preorderList, normalizeList] using hpre
    · intro hmin
      exact normalize_eq_spec rest first ⟨hmin first (List.mem_cons_self _ _), hfi.2⟩
        (fun it hit => ⟨hmin it (List.mem_cons_of_mem _ hit), (hrest it hit).2⟩)

/-- Witness for C9: the list `[(0,"A"), (3,"B"), (-1,"C"), (2,"D")]`, which has
a jump and a negative level. -/
theorem NewTreeFromLeveledList_preorder_witness :
    (∀ first ∈ jumpList.head?, first.Level ≤ 0) ∧
      LeveledList.InRange jumpList ∧
      (∃ root, NewTreeFromLeveledList jumpList = (normalizeList jumpList, some root) ∧
        preorderList 0 root.Children =
          (normalizeList jumpList).map (fun it => (it.Level, it.Text)) ∧
        ((∀ it ∈ jumpList, intMin < it.Level) → normalizeList jumpList = specNormalize jumpList) ∧
        (normalizeList jumpList).map (fun it => it.Text) = jumpList.map (fun it => it.Text) ∧
        LevelsClamped (normalizeList jumpList)) ∧
      NewTreeFromLeveledList [⟨0, "A"⟩, ⟨5, "B"⟩, ⟨-2, "C"⟩, ⟨1, "D"⟩] =
        ([⟨0, "A"⟩, ⟨1, "B"⟩, ⟨0, "C"⟩, ⟨1, "D"⟩],
          some (.mk [.mk [.mk [] "B"] "A", .mk [.mk [] "D"] "C"] "A")) :=
  ⟨by decide, by decide, NewTreeFromLeveledList_preorder jumpList (by decide) (by decide)⟩

/-- C10: `Srender` renders only the children of the root: its output is
`walkOverTree` of `Root.Children` with the empty prefix (nil styles replaced
by the default style), and replacing the root label by any other text leaves
the output unchanged. -/
theorem Srender_children_only (p : Tree) (t : String) :
    p.Srender =
        (walkOverTree p.Root.Children (withDefaultStyles p) "").map (fun s => (s, none)) ∧
      ({ p with Root := .mk p.Root.Children t }).Srender = p.Srender := by
  refine ⟨Srender_eq p, ?_⟩
  rw [Srender_eq, Srender_eq]
  have h := walkLoop_root (withDefaultStyles p) (.mk p.Root.Children t) p.Root.Children
    p.Root.Children.length 0 "" ""
  simp only [walkOverTree, TreeNode.Children]
  exact congrArg _ h


/-- C11: indent clamp through the setter. For every Tree `p` and integer `n`
below 1, `p.WithIndent(n)` equals `p.WithIndent(1)`, its `Indent` field is 1
and it renders as `p.WithIndent(1)` does; for `n` at least 1 the `Indent`
field is `n`. -/
theorem WithIndent_clamp (p : Tree) (n : Int) :
    (n < 1 → p.WithIndent n = p.WithIndent 1 ∧ (p.WithIndent n).Indent = 1 ∧
        (p.WithIndent n).Srender = (p.WithIndent 1).Srender) ∧
      (1 ≤ n → (p.WithIndent n).Indent = n) := by
  constructor
  · intro hn
    have e : p.WithIndent n = p.WithIndent 1 := by
      simp only [Tree.WithIndent, if_pos hn]
      rfl
    exact ⟨e, by rw [e]; rfl, by rw [e]⟩
  · intro hn
    have hn1 : ¬ n < 1 := by omega
    simp only [Tree.WithIndent, if_neg hn1]

/-- Witness for C11: the example tree configured with indent 0 and with
indent 3. -/
theorem WithIndent_clamp_witness :
    (exampleTree.WithIndent 0 = exampleTree.WithIndent 1 ∧
        (exampleTree.WithIndent 0).Indent = 1 ∧
        (exampleTree.WithIndent 0).Srender = (exampleTree.WithIndent 1).Srender) ∧
      (exampleTree.WithIndent 3).Indent = 3 :=
  ⟨(WithIndent_clamp exampleTree 0).1 (by decide), (WithIndent_clamp exampleTree 3).2 (by decide)⟩

/-- C12 (as stated, refuted): `Srender` does not clamp the `Indent` field. With
`Indent = 0` set directly, a childless child is rendered without horizontal
glyph (`└A`), where `Indent = 1` gives `└─A`; and a child that has a child
makes the call panic, where `Indent = 1` returns two lines. -/
theorem Srender_indent_field_not_clamped :
    ({ DefaultTree idStyle idStyle with Root := .mk [.mk [] "A"] "R", Indent := 0 }).Srender =
        some ("└A\n", none) ∧
      ({ DefaultTree idStyle idStyle with Root := .mk [.mk [] "A"] "R", Indent := 1 }).Srender =
        some ("└─A\n", none) ∧
      ({ DefaultTree idStyle idStyle with Root := .mk [.mk [] "A"] "R", Indent := 0 }).Srender ≠
        ({ DefaultTree idStyle idStyle with
            Root := .mk [.mk [] "A"] "R", Indent := 1 }).Srender ∧
      ({ DefaultTree idStyle idStyle with
          Root := .mk [.mk [.mk [] "B"] "A"] "R", Indent := 0 }).Srender = none ∧
      ({ DefaultTree idStyle idStyle with
          Root := .mk [.mk [.mk [] "B"] "A"] "R", Indent := 1 }).Srender =
        some ("└┬A\n └─B\n", none) := by
  have e0 : ({ DefaultTree idStyle idStyle with
      Root := .mk [.mk [] "A"] "R", Indent := 0 }).Srender = some ("└A\n", none) := rfl
  have e1 : ({ DefaultTree idStyle idStyle with
      Root := .mk [.mk [] "A"] "R", Indent := 1 }).Srender = some ("└─A\n", none) := rfl
  refine ⟨e0, e1, ?_, rfl, rfl⟩
  rw [e0, e1]
  simp

/-- C12 (amended): `Srender` reads the `Indent` field as it is. For every Tree
whose `Indent` field is below 1 (and whose decorated horizontal glyph has a
length that is an `int`), `Srender` produces the same result as for the same
Tree with `Indent = 1` exactly when the root has no children, or `Indent` is 0,
no child of the root has children and the decorated horizontal glyph is empty.
With a negative `Indent` and a root that has a child, and with any child of
the root that has children, `Srender` panics, where `Indent = 1` returns a
string and the nil error. -/
theorem Srender_indent_below_one (p : Tree) (h : p.Indent < 1)
    (hH : (((p.TreeStyle.getD NewStyle).Sprint p.HorizontalString).utf8ByteSize : Int)
      ≤ intMax) :
    (p.Srender = ({ p with Indent := 1 }).Srender ↔
        p.Root.Children = [] ∨
          (p.Indent = 0 ∧ (∀ c ∈ p.Root.Children, c.Children = []) ∧
            (p.TreeStyle.getD NewStyle).Sprint p.HorizontalString = "")) ∧
      (p.Indent < 0 → p.Root.Children ≠ [] → p.Srender = none) ∧
      ((∃ c ∈ p.Root.Children, c.Children ≠ []) → p.Srender = none) ∧
      (∃ s, ({ p with Indent := 1 }).Srender = some (s, none)) := by
  have hneg : p.Indent < 0 → p.Root.Children ≠ [] → p.Srender = none := by
    intro hi hne
    cases hS : p.Srender with
    | none => rfl
    | some r =>
      have := (Srender_some_fits p r hne hS).1
      omega
  have hnest : (∃ c ∈ p.Root.Children, c.Children ≠ []) → p.Srender = none := by
    rintro ⟨c, hc, hcc⟩
    by_cases hi : p.Indent < 0
    · exact hneg hi (List.ne_nil_of_mem hc)
    · have h0 : p.Indent = 0 := by omega
      obtain ⟨before, after, hsplit⟩ := List.append_of_mem hc
      obtain ⟨B, hB, -⟩ := walkOverTree_at_opt (withDefaultStyles p)
        (p.TreeStyle.getD NewStyle) (p.TextStyle.getD NewStyle) rfl rfl before ""
      have hr : stringsRepeat ((p.TreeStyle.getD NewStyle).Sprint p.HorizontalString)
          (intSub p.Indent 1) = none :=
        stringsRepeat_neg _ _ (by rw [h0]; decide)
      have hline : itemLine (p.TreeStyle.getD NewStyle) (p.TextStyle.getD NewStyle)
          (withDefaultStyles p) after.isEmpty (!c.Children.isEmpty) "" c.Text = none := by
        have hr1 : stringsRepeat
            ((p.TreeStyle.getD NewStyle).Sprint (withDefaultStyles p).HorizontalString)
            (intSub (withDefaultStyles p).Indent 1) = none := hr
        cases hcs : c.Children with
        | nil => exact absurd hcs hcc
        | cons c1 cs1 => cases after <;> simp [itemLine, hr1]
      rw [Srender_eq, hsplit, hB c after, hline]
      cases B <;> rfl
  have hone : ∃ s, ({ p with Indent := 1 }).Srender = some (s, none) := by
    rw [Srender_eq]
    have h3 : (((p.TreeStyle.getD NewStyle).Sprint p.HorizontalString).utf8ByteSize : Int) *
        (1 : Int) ≤ intMax := by omega
    obtain ⟨s, hs⟩ := walkLoop_total (withDefaultStyles { p with Indent := 1 })
      (p.TreeStyle.getD NewStyle) (p.TextStyle.getD NewStyle) rfl rfl
      (by show (1 : Int) ≤ 1; omega) (by show (1 : Int) ≤ intMax; decide) h3
      p.Root.Children p.Root.Children.length 0 "" ""
    have hs1 : walkOverTree ({ p with Indent := 1 } : Tree).Root.Children
        (withDefaultStyles { p with Indent := 1 }) "" = some s := hs
    exact ⟨s, by rw [hs1]; rfl⟩
  refine ⟨⟨?_, ?_⟩, hneg, hnest, hone⟩
  · intro heq
    by_contra hcon
    rw [not_or] at hcon
    obtain ⟨hne, hcon2⟩ := hcon
    obtain ⟨s1, hs1⟩ := hone
    by_cases hi : p.Indent < 0
    · rw [hneg hi hne, hs1] at heq
      simp at heq
    · have h0 : p.Indent = 0 := by omega
      by_cases hflat : ∀ c ∈ p.Root.Children, c.Children = []
      · obtain ⟨o0, o1, e0, e1, hlen, -⟩ := walkOverTree_flat (withDefaultStyles p)
          (p.TreeStyle.getD NewStyle) (p.TextStyle.getD NewStyle) rfl rfl h0 hH
          p.Root.Children "" hflat
        have eS0 : p.Srender = some (o0, none) := by rw [Srender_eq, e0]; rfl
        have e1a : walkOverTree ({ p with Indent := 1 } : Tree).Root.Children
            (withDefaultStyles { p with Indent := 1 }) "" = some o1 := e1
        have eS1 : ({ p with Indent := 1 } : Tree).Srender = some (o1, none) := by
          rw [Srender_eq, e1a]; rfl
        rw [eS0, eS1] at heq
        have hoo : o0 = o1 := by simpa using heq
        rw [hoo] at hlen
        have hz : p.Root.Children.length *
            ((p.TreeStyle.getD NewStyle).Sprint p.HorizontalString).length = 0 := by
          have hlen1 : o1.length = o1.length + p.Root.Children.length *
              ((p.TreeStyle.getD NewStyle).Sprint p.HorizontalString).length := hlen
          omega
        rcases Nat.mul_eq_zero.1 hz with hz | hz
        · exact hne (List.length_eq_zero.1 hz)
        · exact hcon2 ⟨h0, hflat, string_eq_empty_of_length _ hz⟩
      · push_neg at hflat
        obtain ⟨c, hc, hcc⟩ := hflat
        rw [hnest ⟨c, hc, hcc⟩, hs1] at heq
        simp at heq
  · rintro (hc | ⟨h0, hflat, hempty⟩)
    · rw [Srender_eq, Srender_eq, hc, walkOverTree_nil, walkOverTree_nil]
    · obtain ⟨o0, o1, e0, e1, -, heq⟩ := walkOverTree_flat (withDefaultStyles p)
        (p.TreeStyle.getD NewStyle) (p.TextStyle.getD NewStyle) rfl rfl h0 hH
        p.Root.Children "" hflat
      have e1a : walkOverTree ({ p with Indent := 1 } : Tree).Root.Children
          (withDefaultStyles { p with Indent := 1 }) "" = some o1 := e1
      rw [Srender_eq, Srender_eq, e0, e1a, heq hempty]

/-- Witness for C12 (amended): the default tree with the two childless children
A and B and the `Indent` field set to 0. -/
theorem Srender_indent_below_one_witness :
    flatTreeIndent0.Indent < 1 ∧
      (((flatTreeIndent0.TreeStyle.getD NewStyle).Sprint
        flatTreeIndent0.HorizontalString).utf8ByteSize : Int) ≤ intMax ∧
      ((flatTreeIndent0.Srender = ({ flatTreeIndent0 with Indent := 1 }).Srender ↔
          flatTreeIndent0.Root.Children = [] ∨
            (flatTreeIndent0.Indent = 0 ∧ (∀ c ∈ flatTreeIndent0.Root.Children, c.Children = []) ∧
              (flatTreeIndent0.TreeStyle.getD NewStyle).Sprint flatTreeIndent0.HorizontalString = "")) ∧
        (flatTreeIndent0.Indent < 0 → flatTreeIndent0.Root.Children ≠ [] → flatTreeIndent0.Srender = none) ∧
        ((∃ c ∈ flatTreeIndent0.Root.Children, c.Children ≠ []) → flatTreeIndent0.Srender = none) ∧
        (∃ s, ({ flatTreeIndent0 with Indent := 1 }).Srender = some (s, none))) :=
  ⟨by decide, by decide, Srender_indent_below_one flatTreeIndent0 (by decide) (by decide)⟩

/-- C13 (code defect): on the non-empty list `[(2,"X"), (0,"Y")]`, whose first
item has level 2, the call panics in its first iteration: no root is returned,
so no root carries the label of the first item. -/
theorem NewTreeFromLeveledList_no_root_first_level_two :
    NewTreeFromLeveledList [⟨2, "X"⟩, ⟨0, "Y"⟩] = ([⟨2, "X"⟩, ⟨0, "Y"⟩], none) ∧
      ¬ ∃ root, (NewTreeFromLeveledList [⟨2, "X"⟩, ⟨0, "Y"⟩]).2 = some root ∧
        root.Text = "X" := by
  have e : NewTreeFromLeveledList [⟨2, "X"⟩, ⟨0, "Y"⟩] = ([⟨2, "X"⟩, ⟨0, "Y"⟩], none) := rfl
  refine ⟨e, ?_⟩
  rw [e]
  rintro ⟨root, h, -⟩
  simp at h

/-- C14: empty input. `NewTreeFromLeveledList` applied to the empty list
returns the empty TreeNode (empty label, no children), and `Srender` of any
Tree whose root has no children returns the empty string and the nil error. -/
theorem empty_input (p : Tree) (h : p.Root.Children = []) :
    NewTreeFromLeveledList [] = ([], some (.mk [] "")) ∧
      (TreeNode.mk [] "").Text = "" ∧ (TreeNode.mk [] "").Children = [] ∧
      p.Srender = some ("", none) := by
  refine ⟨rfl, rfl, rfl, ?_⟩
  rw [Srender_eq, h, walkOverTree_nil]
  rfl

/-- Witness for C14: the default tree, whose root is the empty TreeNode. -/
theorem empty_input_witness :
    (DefaultTree idStyle idStyle).Root.Children = [] ∧
      (NewTreeFromLeveledList [] = ([], some (.mk [] "")) ∧
        (TreeNode.mk [] "").Text = "" ∧ (TreeNode.mk [] "").Children = [] ∧
        (DefaultTree idStyle idStyle).Srender = some ("", none)) :=
  ⟨rfl, empty_input (DefaultTree idStyle idStyle) rfl⟩

/-- C15 (as stated, refuted): with a decoration that brackets its text, the
line of a single childless child under the default glyphs and indent 2 is
`[└][─][─]A`, not `[└──]A`: the decoration is applied to each glyph, not to the
connector sequence as a whole. -/
theorem line_decoration_not_whole_connector :
    walkOverTree [.mk [] "A"] (DefaultTree bracketStyle idStyle) "" = some "[└][─][─]A\n" ∧
      "" ++ bracketStyle.Sprint ((DefaultTree bracketStyle idStyle).TopRightCornerString ++
          repeatString (DefaultTree bracketStyle idStyle).HorizontalString 2) ++
        idStyle.Sprint "A" ++ "\n" = "[└──]A\n" ∧
      walkOverTree [.mk [] "A"] (DefaultTree bracketStyle idStyle) "" ≠ some "[└──]A\n" := by
  have e : walkOverTree [.mk [] "A"] (DefaultTree bracketStyle idStyle) "" =
      some "[└][─][─]A\n" := rfl
  refine ⟨e, rfl, ?_⟩
  rw [e]
  simp

/-- C15 (amended): decoration of the emitted line. For every structure
decoration `d` and label decoration `t`, the line `walkOverTree` emits for a
child is `prefix + d(first glyph) + strings.Repeat(d(HorizontalString), n)`,
then `d(RightDownLeftString)` when the child has children, then
`t(label) + "\n"`, with `n = Indent` without children and `n = Indent-1` with
children: `d` is applied to each glyph on its own. The result on the sibling
list is the text `B` of the earlier siblings, this line, the text of the
children and the text of the later siblings, and it is a panic where one of
them is. When `Indent` is at least 1 and the decorated horizontal glyph
repeated `Indent` times fits in `int`, no call panics: the text `b` of the
earlier siblings, the line, the text of the children and the text of the
later siblings exist, and `walkOverTree` returns their concatenation. -/
theorem walkOverTree_line_decoration (p : Tree) (d t : Style) (hd : p.TreeStyle = some d)
    (ht : p.TextStyle = some t) (before : List TreeNode) (pfx : String) :
    ∃ B : Option String,
      (∀ (item : TreeNode) (after : List TreeNode),
        walkOverTree (before ++ item :: after) p pfx =
          B.bind fun b =>
            (match after, item.Children with
              | _ :: _, [] =>
                (stringsRepeat (d.Sprint p.HorizontalString) p.Indent).map fun r =>
                  pfx ++ d.Sprint p.TopRightDownString ++ r ++ t.Sprint item.Text ++ "\n"
              | _ :: _, _ :: _ =>
                (stringsRepeat (d.Sprint p.HorizontalString) (intSub p.Indent 1)).map
                  fun r =>
                    pfx ++ d.Sprint p.TopRightDownString ++ r ++
                      d.Sprint p.RightDownLeftString ++ t.Sprint item.Text ++ "\n"
              | [], [] =>
                (stringsRepeat (d.Sprint p.HorizontalString) p.Indent).map fun r =>
                  pfx ++ d.Sprint p.TopRightCornerString ++ r ++ t.Sprint item.Text ++
                    "\n"
              | [], _ :: _ =>
                (stringsRepeat (d.Sprint p.HorizontalString) (intSub p.Indent 1)).map
                  fun r =>
                    pfx ++ d.Sprint p.TopRightCornerString ++ r ++
                      d.Sprint p.RightDownLeftString ++ t.Sprint item.Text ++ "\n").bind
              fun line =>
                (childrenText d p after.isEmpty item.Children pfx).bind fun sub =>
                  (walkOverTree after p pfx).map fun tail => b ++ line ++ sub ++ tail) ∧
      (1 ≤ p.Indent → p.Indent ≤ intMax →
        ((d.Sprint p.HorizontalString).utf8ByteSize : Int) * p.Indent ≤ intMax →
        ∃ b : String, B = some b ∧
          ∀ (item : TreeNode) (after : List TreeNode), ∃ sub tail : String,
            childrenText d p after.isEmpty item.Children pfx = some sub ∧
            walkOverTree after p pfx = some tail ∧
            walkOverTree (before ++ item :: after) p pfx =
              some (b ++ (pfx ++
                (match after, item.Children with
                  | _ :: _, [] =>
                    d.Sprint p.TopRightDownString ++
                      repeatString (d.Sprint p.HorizontalString) p.Indent.toNat
                  | _ :: _, _ :: _ =>
                    d.Sprint p.TopRightDownString ++
                      repeatString (d.Sprint p.HorizontalString) (p.Indent - 1).toNat ++
                      d.Sprint p.RightDownLeftString
                  | [], [] =>
                    d.Sprint p.TopRightCornerString ++
                      repeatString (d.Sprint p.HorizontalString) p.Indent.toNat
                  | [], _ :: _ =>
                    d.Sprint p.TopRightCornerString ++
                      repeatString (d.Sprint p.HorizontalString) (p.Indent - 1).toNat ++
                      d.Sprint p.RightDownLeftString)
                ++ t.Sprint item.Text ++ "\n") ++ sub ++ tail)) := by
  obtain ⟨B, hB, hBs⟩ := walkOverTree_at_opt p d t hd ht before pfx
  refine ⟨B, fun item after => ?_, fun h1 h2 h3 => ?_⟩
  · rw [hB item after]
    cases item with
    | mk cs label =>
      cases after <;> cases cs <;> rfl
  · obtain ⟨b, hb⟩ := hBs h1 h2 h3
    refine ⟨b, hb, fun item after => ?_⟩
    obtain ⟨sub, tail, hsub, -, htail, -, hall⟩ :=
      walkOverTree_at_parts p d t hd ht h1 h2 h3 before pfx B hB b hb item after
    refine ⟨sub, tail, hsub, htail, ?_⟩
    rw [hall]
    cases item with
    | mk cs label =>
      cases after <;> cases cs <;> simp [connector, TreeNode.Children, TreeNode.Text]

/-- Witness for C15 (amended): the example tree with identity decoration, the
whole sibling list and the empty prefix. -/
theorem walkOverTree_line_decoration_witness :
    exampleTree.TreeStyle = some idStyle ∧ exampleTree.TextStyle = some idStyle ∧
      1 ≤ exampleTree.Indent ∧ exampleTree.Indent ≤ intMax ∧
      ((idStyle.Sprint exampleTree.HorizontalString).utf8ByteSize : Int) * exampleTree.Indent
        ≤ intMax ∧
      ∃ B : Option String,
        (∀ (item : TreeNode) (after : List TreeNode),
          walkOverTree ([] ++ item :: after) exampleTree "" =
            B.bind fun b =>
              (match after, item.Children with
                | _ :: _, [] =>
                  (stringsRepeat (idStyle.Sprint exampleTree.HorizontalString) exampleTree.Indent).map fun r =>
                    "" ++ idStyle.Sprint exampleTree.TopRightDownString ++ r ++ idStyle.Sprint item.Text ++ "\n"
                | _ :: _, _ :: _ =>
                  (stringsRepeat (idStyle.Sprint exampleTree.HorizontalString) (intSub exampleTree.Indent 1)).map
                    fun r =>
                      "" ++ idStyle.Sprint exampleTree.TopRightDownString ++ r ++
                        idStyle.Sprint exampleTree.RightDownLeftString ++ idStyle.Sprint item.Text ++ "\n"
                | [], [] =>
                  (stringsRepeat (idStyle.Sprint exampleTree.HorizontalString) exampleTree.Indent).map fun r =>
                    "" ++ idStyle.Sprint exampleTree.TopRightCornerString ++ r ++ idStyle.Sprint item.Text ++
                      "\n"
                | [], _ :: _ =>
                  (stringsRepeat (idStyle.Sprint exampleTree.HorizontalString) (intSub exampleTree.Indent 1)).map
                    fun r =>
                      "" ++ idStyle.Sprint exampleTree.TopRightCornerString ++ r ++
                        idStyle.Sprint exampleTree.RightDownLeftString ++ idStyle.Sprint item.Text ++ "\n").bind
                fun line =>
                  (childrenText idStyle exampleTree after.isEmpty item.Children "").bind fun sub =>
                    (walkOverTree after exampleTree "").map fun tail => b ++ line ++ sub ++ tail) ∧
        (1 ≤ exampleTree.Indent → exampleTree.Indent ≤ intMax →
          ((idStyle.Sprint exampleTree.HorizontalString).utf8ByteSize : Int) * exampleTree.Indent ≤ intMax →
          ∃ b : String, B = some b ∧
            ∀ (item : TreeNode) (after : List TreeNode), ∃ sub tail : String,
              childrenText idStyle exampleTree after.isEmpty item.Children "" = some sub ∧
              walkOverTree after exampleTree "" = some tail ∧
              walkOverTree ([] ++ item :: after) exampleTree "" =
                some (b ++ ("" ++
                  (match after, item.Children with
                    | _ :: _, [] =>
                      idStyle.Sprint exampleTree.TopRightDownString ++
                        repeatString (idStyle.Sprint exampleTree.HorizontalString) exampleTree.Indent.toNat
                    | _ :: _, _ :: _ =>
                      idStyle.Sprint exampleTree.TopRightDownString ++
                        repeatString (idStyle.Sprint exampleTree.HorizontalString) (exampleTree.Indent - 1).toNat ++
                        idStyle.Sprint exampleTree.RightDownLeftString
                    | [], [] =>
                      idStyle.Sprint exampleTree.TopRightCornerString ++
                        repeatString (idStyle.Sprint exampleTree.HorizontalString) exampleTree.Indent.toNat
                    | [], _ :: _ =>
                      idStyle.Sprint exampleTree.TopRightCornerString ++
                        repeatString (idStyle.Sprint exampleTree.HorizontalString) (exampleTree.Indent - 1).toNat ++
                        idStyle.Sprint exampleTree.RightDownLeftString)
                  ++ idStyle.Sprint item.Text ++ "\n") ++ sub ++ tail)) :=
  ⟨rfl, rfl, by decide, by decide, by decide,
    walkOverTree_line_decoration exampleTree idStyle idStyle rfl rfl [] ""⟩

/-- C16: prefix extension. In the result of `walkOverTree` on a sibling list,
the text right after the line of a child is nothing when the child has no
children, and otherwise the result of `walkOverTree` on the child's children
with the prefix extended by `d(VerticalString)` and
`strings.Repeat(" ", Indent-1)` when the child is not the last sibling, and by
`strings.Repeat(" ", Indent)` alone when it is the last; the result is a panic
where a part is, and `B` is the text of the earlier siblings. When `Indent` is
at least 1 and the decorated horizontal glyph repeated `Indent` times fits in
`int`, no call panics: `walkOverTree` returns the text `b` of the earlier
siblings, then the line of the child, then the text `sub` that `walkOverTree`
returns for the child's children under the prefix extended by
`d(VerticalString)` and `Indent-1` spaces (not last) or by `Indent` spaces
(last), then the text of the later siblings; `sub` is empty for a childless
child. -/
theorem walkOverTree_prefix_extension (p : Tree) (d t : Style) (hd : p.TreeStyle = some d)
    (ht : p.TextStyle = some t) (before : List TreeNode) (pfx : String) :
    ∃ B : Option String,
      (∀ (item : TreeNode) (after : List TreeNode),
        walkOverTree (before ++ item :: after) p pfx =
          B.bind fun b =>
            (itemLine d t p after.isEmpty (!item.Children.isEmpty) pfx item.Text).bind
              fun line =>
                (match item.Children, after with
                  | [], _ => some ""
                  | _ :: _, _ :: _ =>
                    (stringsRepeat " " (intSub p.Indent 1)).bind fun sp =>
                      walkOverTree item.Children p
                        (pfx ++ d.Sprint p.VerticalString ++ sp)
                  | _ :: _, [] =>
                    (stringsRepeat " " p.Indent).bind fun sp =>
                      walkOverTree item.Children p (pfx ++ sp)).bind
                  fun sub =>
                    (walkOverTree after p pfx).map fun tail => b ++ line ++ sub ++ tail) ∧
      (1 ≤ p.Indent → p.Indent ≤ intMax →
        ((d.Sprint p.HorizontalString).utf8ByteSize : Int) * p.Indent ≤ intMax →
        ∃ b : String, B = some b ∧
          ∀ (item : TreeNode) (after : List TreeNode), ∃ line sub tail : String,
            itemLine d t p after.isEmpty (!item.Children.isEmpty) pfx item.Text =
              some line ∧
            walkOverTree item.Children p
              (match after with
                | _ :: _ =>
                  pfx ++ d.Sprint p.VerticalString ++
                    repeatString " " (p.Indent - 1).toNat
                | [] => pfx ++ repeatString " " p.Indent.toNat) = some sub ∧
            (item.Children = [] → sub = "") ∧
            walkOverTree after p pfx = some tail ∧
            walkOverTree (before ++ item :: after) p pfx =
              some (b ++ line ++ sub ++ tail)) := by
  obtain ⟨B, hB, hBs⟩ := walkOverTree_at_opt p d t hd ht before pfx
  refine ⟨B, fun item after => ?_, fun h1 h2 h3 => ?_⟩
  · rw [hB item after]
    cases item with
    | mk cs label =>
      cases after <;> cases cs <;> rfl
  · obtain ⟨b, hb⟩ := hBs h1 h2 h3
    refine ⟨b, hb, fun item after => ?_⟩
    obtain ⟨sub, tail, -, hsub, htail, hline, hall⟩ :=
      walkOverTree_at_parts p d t hd ht h1 h2 h3 before pfx B hB b hb item after
    refine ⟨_, sub, tail, hline, ?_, ?_, htail, hall⟩
    · cases after <;> simpa [childPfx] using hsub
    · intro hc
      rw [hc, walkOverTree_nil] at hsub
      simpa using hsub.symm

/-- Witness for C16: the example tree with identity decoration, the whole
sibling list and the empty prefix. -/
theorem walkOverTree_prefix_extension_witness :
    exampleTree.TreeStyle = some idStyle ∧ exampleTree.TextStyle = some idStyle ∧
      1 ≤ exampleTree.Indent ∧ exampleTree.Indent ≤ intMax ∧
      ((idStyle.Sprint exampleTree.HorizontalString).utf8ByteSize : Int) * exampleTree.Indent
        ≤ intMax ∧
      ∃ B : Option String,
        (∀ (item : TreeNode) (after : List TreeNode),
          walkOverTree ([] ++ item :: after) exampleTree "" =
            B.bind fun b =>
              (itemLine idStyle idStyle exampleTree after.isEmpty (!item.Children.isEmpty) "" item.Text).bind
                fun line =>
                  (match item.Children, after with
                    | [], _ => some ""
                    | _ :: _, _ :: _ =>
                      (stringsRepeat " " (intSub exampleTree.Indent 1)).bind fun sp =>
                        walkOverTree item.Children exampleTree
                          ("" ++ idStyle.Sprint exampleTree.VerticalString ++ sp)
                    | _ :: _, [] =>
                      (stringsRepeat " " exampleTree.Indent).bind fun sp =>
                        walkOverTree item.Children exampleTree ("" ++ sp)).bind
                    fun sub =>
                      (walkOverTree after exampleTree "").map fun tail => b ++ line ++ sub ++ tail) ∧
        (1 ≤ exampleTree.Indent → exampleTree.Indent ≤ intMax →
          ((idStyle.Sprint exampleTree.HorizontalString).utf8ByteSize : Int) * exampleTree.Indent ≤ intMax →
          ∃ b : String, B = some b ∧
            ∀ (item : TreeNode) (after : List TreeNode), ∃ line sub tail : String,
              itemLine idStyle idStyle exampleTree after.isEmpty (!item.Children.isEmpty) "" item.Text =
                some line ∧
              walkOverTree item.Children exampleTree
                (match after with
                  | _ :: _ =>
                    "" ++ idStyle.Sprint exampleTree.VerticalString ++
                      repeatString " " (exampleTree.Indent - 1).toNat
                  | [] => "" ++ repeatString " " exampleTree.Indent.toNat) = some sub ∧
              (item.Children = [] → sub = "") ∧
              walkOverTree after exampleTree "" = some tail ∧
              walkOverTree ([] ++ item :: after) exampleTree "" =
                some (b ++ line ++ sub ++ tail)) :=
  ⟨rfl, rfl, by decide, by decide, by decide,
    walkOverTree_prefix_extension exampleTree idStyle idStyle rfl rfl [] ""⟩

/-- C18: each setter returns a Tree whose named field is the argument (for
`WithIndent` the argument clamped to at least 1) and whose every other field is
the field of the receiver. The receiver is passed by value, so the caller's
Tree is not changed. -/
theorem setters_frame (p : Tree) (style : Option Style) (s : String) (root : TreeNode)
    (indent : Int) :
    p.WithTreeStyle style =
        { Root := p.Root, TreeStyle := style, TextStyle := p.TextStyle,
          TopRightCornerString := p.TopRightCornerString,
          TopRightDownString := p.TopRightDownString,
          HorizontalString := p.HorizontalString, VerticalString := p.VerticalString,
          RightDownLeftString := p.RightDownLeftString, Indent := p.Indent } ∧
      p.WithTextStyle style =
        { Root := p.Root, TreeStyle := p.TreeStyle, TextStyle := style,
          TopRightCornerString := p.TopRightCornerString,
          TopRightDownString := p.TopRightDownString,
          HorizontalString := p.HorizontalString, VerticalString := p.VerticalString,
          RightDownLeftString := p.RightDownLeftString, Indent := p.Indent } ∧
      p.WithTopRightCornerString s =
        { Root := p.Root, TreeStyle := p.TreeStyle, TextStyle := p.TextStyle,
          TopRightCornerString := s,
          TopRightDownString := p.TopRightDownString,
          HorizontalString := p.HorizontalString, VerticalString := p.VerticalString,
          RightDownLeftString := p.RightDownLeftString, Indent := p.Indent } ∧
      p.WithTopRightDownStringOngoing s =
        { Root := p.Root, TreeStyle := p.TreeStyle, TextStyle := p.TextStyle,
          TopRightCornerString := p.TopRightCornerString,
          TopRightDownString := s,
          HorizontalString := p.HorizontalString, VerticalString := p.VerticalString,
          RightDownLeftString := p.RightDownLeftString, Indent := p.Indent } ∧
      p.WithHorizontalString s =
        { Root := p.Root, TreeStyle := p.TreeStyle, TextStyle := p.TextStyle,
          TopRightCornerString := p.TopRightCornerString,
          TopRightDownString := p.TopRightDownString,
          HorizontalString := s, VerticalString := p.VerticalString,
          RightDownLeftString := p.RightDownLeftString, Indent := p.Indent } ∧
      p.WithVerticalString s =
        { Root := p.Root, TreeStyle := p.TreeStyle, TextStyle := p.TextStyle,
          TopRightCornerString := p.TopRightCornerString,
          TopRightDownString := p.TopRightDownString,
          HorizontalString := p.HorizontalString, VerticalString := s,
          RightDownLeftString := p.RightDownLeftString, Indent := p.Indent } ∧
      p.WithRoot root =
        { Root := root, TreeStyle := p.TreeStyle, TextStyle := p.TextStyle,
          TopRightCornerString := p.TopRightCornerString,
          TopRightDownString := p.TopRightDownString,
          HorizontalString := p.HorizontalString, VerticalString := p.VerticalString,
          RightDownLeftString := p.RightDownLeftString, Indent := p.Indent } ∧
      p.WithIndent indent =
        { Root := p.Root, TreeStyle := p.TreeStyle, TextStyle := p.TextStyle,
          TopRightCornerString := p.TopRightCornerString,
          TopRightDownString := p.TopRightDownString,
          HorizontalString := p.HorizontalString, VerticalString := p.VerticalString,
          RightDownLeftString := p.RightDownLeftString, Indent := max indent 1 } := by
  refine ⟨rfl, rfl, rfl, rfl, rfl, rfl, rfl, ?_⟩
  have e : (if indent < 1 then 1 else indent) = max indent 1 := by
    split
    · rw [max_eq_right (by omega)]
    · rw [max_eq_left (by omega)]
  simp only [Tree.WithIndent, e]


end Pterm
